import Mathlib

/-!
# sslvrfy: the chain-verification walk of `main` (src/sslvrfy.go)

A shallow embedding of the loop of `main` (lines 64-193).  The TLS connection, the
printing and the PEM output are left out.  The cryptographic library is a
parameter: `CheckSignatureFrom` and `Verify` are oracles of the record `Crypto`, and
`time.Now()` is a value of that record.  The six verdict variables and the
certificate pool are threaded through the loop as a `State`.  The float64
arithmetic of `Duration.Hours` is modelled on the rationals, with the rounding of
each operation.
-/

namespace Sslvrfy

/-- An `x509.Certificate`, reduced to the two fields the walk reads: the DER bytes
`Raw` and the instant `NotAfter` (nanoseconds since the epoch). -/
structure Certificate where
  Raw : List Nat
  NotAfter : Int
deriving DecidableEq, Repr

instance : Inhabited Certificate := ⟨⟨[], 0⟩⟩

/-- The method `Certificate.Equal` of crypto/x509: equality of the raw bytes. -/
def Certificate.Equal (c other : Certificate) : Bool :=
  decide (c.Raw = other.Raw)

/-- The method `CertPool.AddCert` of crypto/x509 on the pool's certificate list: a
certificate already in the pool (by `Equal`) is not added again. -/
def AddCert (certPool : List Certificate) (cert : Certificate) : List Certificate :=
  if certPool.any (fun c => c.Equal cert) then certPool else certPool ++ [cert]

/-- The indexing `cstate.PeerCertificates[i]`.  The loop only reads indices below
the length of the chain; outside of it the model returns the default certificate. -/
def certAt (PeerCertificates : List Certificate) (i : Nat) : Certificate :=
  PeerCertificates.getD i default

/-- The two fields of `x509.VerifyOptions` the program sets.  `Roots = none` is Go's
`Roots: nil`, which makes `Verify` use the system trust store. -/
structure VerifyOptions where
  Roots : Option (List Certificate)
  DNSName : String
deriving DecidableEq, Repr

/-- The external collaborators of the walk.  `CheckSignatureFrom child parent` is
`true` when Go's `child.CheckSignatureFrom(parent)` returns a nil error; `Verify`
returns `none` when Go's `cert.Verify(opts)` returns an error and `some certChains`
otherwise; `now` is the value of `time.Now()` read at line 182. -/
structure Crypto where
  CheckSignatureFrom : Certificate → Certificate → Bool
  Verify : Certificate → VerifyOptions → Option (List (List Certificate))
  now : Int

/-- The local variables of `main` that survive an iteration (lines 66-71 and 79). -/
structure State where
  isRootKnownCert : Int
  isChainValidated : Int
  isValidated : Int
  isSelfsigned : Int
  isChainInOrder : Int
  notAfterInDays : Int
  certPool : List Certificate
deriving DecidableEq, Repr

/-- The initial values of lines 66-71 and the empty pool of line 79. -/
def init : State :=
  { isRootKnownCert := -1, isChainValidated := -1, isValidated := -1,
    isSelfsigned := 0, isChainInOrder := 0, notAfterInDays := -1, certPool := [] }

/-- Nanoseconds in an hour (`time.Hour`). -/
def Hour : Int := 3600000000000

/-- The least `time.Duration` (an int64 count of nanoseconds). -/
def minDuration : Int := -(2 ^ 63)

/-- The greatest `time.Duration`. -/
def maxDuration : Int := 2 ^ 63 - 1

/-- The method `Time.Sub`: the difference `t - u` in nanoseconds, saturated to the
range of `time.Duration`. -/
def Sub (t u : Int) : Int :=
  if t - u < minDuration then minDuration
  else if maxDuration < t - u then maxDuration
  else t - u

/-- Rounding of a rational to the nearest integer, ties to the even one. -/
def roundHalfEven (y : ℚ) : ℤ :=
  if y - ⌊y⌋ < 1 / 2 then ⌊y⌋
  else if 1 / 2 < y - ⌊y⌋ then ⌊y⌋ + 1
  else if ⌊y⌋ % 2 = 0 then ⌊y⌋ else ⌊y⌋ + 1

/-- The value a float64 operation returns for the exact result `x`: the nearest
number with a significand of 53 bits, ties to even (IEEE 754 binary64, the default
rounding).  With `e = Int.log 2 |x|`, that is `2^e ≤ |x| < 2^(e+1)`, the numbers of
that binade are the multiples of `2^(e-52)`.  The exponent range is not modelled:
the values of `Hours` lie between `2^-42` and `2^22` in magnitude, or are 0. -/
def roundFloat64 (x : ℚ) : ℚ :=
  if x = 0 then 0
  else roundHalfEven (x * 2 ^ (52 - Int.log 2 |x|)) / 2 ^ (52 - Int.log 2 |x|)

/-- The method `Duration.Hours` of package time:
`hour := d / Hour; nsec := d % Hour; return float64(hour) + float64(nsec)/(60*60*1e9)`,
with Go's truncating `/` and `%` on the int64 duration, the two conversions to
float64, the float64 division and the float64 addition. -/
def Hours (d : Int) : ℚ :=
  roundFloat64 (roundFloat64 (Int.tdiv d Hour) +
    roundFloat64 (roundFloat64 (Int.tmod d Hour) / 3600000000000))

/-- The conversion `int(x)` of a float64 to an integer: the fraction is discarded
(truncation toward zero). -/
def truncToInt (x : ℚ) : Int := if 0 ≤ x then ⌊x⌋ else ⌈x⌉

/-- The expression `int(d.Hours())` of line 182. -/
def hoursInt (d : Int) : Int := truncToInt (Hours d)

/-- Line 182: `int(cert.NotAfter.Sub(time.Now()).Hours()) / 24`, with Go's integer
division (truncating toward zero). -/
def daysUntil (notAfter now : Int) : Int :=
  Int.tdiv (hoursInt (Sub notAfter now)) 24

/-- Lines 172-178: the inner loop over the positions of the presented chain, entered
with `isChainInOrder = acc`; the first unequal position sets 0 and breaks. -/
def orderInner : List Certificate → List Certificate → Int → Int
  | p :: ps, c :: cs, acc => if !(p.Equal c) then 0 else orderInner ps cs acc
  | _, _, acc => acc

/-- Lines 169-179: the body of the loop over `certChains`: the flag is set to 1, and
a chain of the presented length is then compared position by position. -/
def orderBody (PeerCertificates : List Certificate) (_acc : Int)
    (chain : List Certificate) : Int :=
  if chain.length = PeerCertificates.length then orderInner PeerCertificates chain 1
  else 1

/-- Lines 167-180: `isChainInOrder` after the loop over `certChains`. -/
def chainInOrder (PeerCertificates : List Certificate)
    (certChains : List (List Certificate)) : Int :=
  certChains.foldl (orderBody PeerCertificates) 0

/-- Lines 109-112 and 136-143: the options handed to `Verify` in iteration `i`, given
the pool as it stands at that point. -/
def vrfyOpts (n : Nat) (host : String) (i : Nat) (certPool : List Certificate) :
    VerifyOptions :=
  { Roots := if i ≠ n - 1 then some certPool else none,
    DNSName := if i = 0 then host else "" }

/-- Lines 119-132: the parent-signature and self-signature checks of iteration `i`,
skipped for the outermost certificate. -/
def checkSignatures (K : Crypto) (PeerCertificates : List Certificate) (i : Nat)
    (st : State) : State :=
  let cert := certAt PeerCertificates i
  if i ≠ PeerCertificates.length - 1 then
    let st1 :=
      if !(K.CheckSignatureFrom cert (certAt PeerCertificates (i + 1))) then
        { st with isChainValidated := 0 }
      else st
    if K.CheckSignatureFrom cert cert then { st1 with isSelfsigned := 1 } else st1
  else st

/-- Lines 145-162: the effect of the result of `Verify` on the two rollups. -/
def recordVerify (n i : Nat) (certChains : Option (List (List Certificate)))
    (st : State) : State :=
  match certChains with
  | none =>
    let st1 := if i ≠ n - 1 then { st with isRootKnownCert := 0 } else st
    { st1 with isChainValidated := 0 }
  | some _ =>
    let st1 :=
      if i ≠ n - 1 then
        (if st.isRootKnownCert = -1 then { st with isRootKnownCert := 1 } else st)
      else st
    if st1.isChainValidated = -1 then { st1 with isChainValidated := 1 } else st1

/-- Lines 164-183: the order and expiry judgement, made in the iteration of the
leaf only.  A failed `Verify` leaves `certChains` nil, that is, empty. -/
def judgeLeaf (K : Crypto) (PeerCertificates : List Certificate) (i : Nat)
    (certChains : Option (List (List Certificate))) (st : State) : State :=
  if i = 0 then
    let inOrder := chainInOrder PeerCertificates (certChains.getD [])
    { st with
      isChainInOrder := inOrder
      isChainValidated := st.isChainValidated * inOrder
      notAfterInDays := daysUntil (certAt PeerCertificates i).NotAfter K.now }
  else st

/-- Line 145: the call `cert.Verify(vrfyOpts)` of iteration `i`, where `certPool` is
the pool at that point (the certificate of the iteration was added at line 107). -/
def verifyCall (K : Crypto) (PeerCertificates : List Certificate) (host : String)
    (i : Nat) (certPool : List Certificate) : Option (List (List Certificate)) :=
  K.Verify (certAt PeerCertificates i)
    (vrfyOpts PeerCertificates.length host i certPool)

/-- Lines 98-185: one iteration of the loop, for the certificate at index `i`. -/
def iter (K : Crypto) (PeerCertificates : List Certificate) (host : String) (i : Nat)
    (st : State) : State :=
  let cert := certAt PeerCertificates i
  let st0 := { st with certPool := AddCert st.certPool cert }
  let st1 := checkSignatures K PeerCertificates i st0
  let certChains := verifyCall K PeerCertificates host i st0.certPool
  let st2 := recordVerify PeerCertificates.length i certChains st1
  let st3 := judgeLeaf K PeerCertificates i certChains st2
  { st3 with isValidated := st3.isRootKnownCert * st3.isChainValidated }

/-- Line 97: the iterations for the indices `lo+k-1, lo+k-2, ..., lo`, in that
order, started in the state `st`. -/
def loop (K : Crypto) (PeerCertificates : List Certificate) (host : String) (lo : Nat) :
    Nat → State → State
  | 0, st => st
  | k + 1, st =>
    loop K PeerCertificates host lo k (iter K PeerCertificates host (lo + k) st)

/-- The verdicts printed at lines 188-193 for the presented chain: the loop runs
over the indices `n-1, ..., 0`. -/
def run (K : Crypto) (PeerCertificates : List Certificate) (host : String) : State :=
  loop K PeerCertificates host 0 PeerCertificates.length init

/-- The state in which the iteration of index `i` ends: the iterations of the
indices `n-1, ..., i` have run. -/
def stateAfter (K : Crypto) (PeerCertificates : List Certificate) (host : String)
    (i : Nat) : State :=
  loop K PeerCertificates host i (PeerCertificates.length - i) init

/-- The state in which the iteration of index `i` starts: the iterations of the
indices `n-1, ..., i+1` have run. -/
def stateBefore (K : Crypto) (PeerCertificates : List Certificate) (host : String)
    (i : Nat) : State :=
  stateAfter K PeerCertificates host (i + 1)

/-- The pool at line 145 of the iteration of index `i`. -/
def poolAt (K : Crypto) (PeerCertificates : List Certificate) (host : String)
    (i : Nat) : List Certificate :=
  AddCert (stateBefore K PeerCertificates host i).certPool
    (certAt PeerCertificates i)

/-- The result of `Verify` for the certificate at index `i` in the walk. -/
def verifyAt (K : Crypto) (PeerCertificates : List Certificate) (host : String)
    (i : Nat) : Option (List (List Certificate)) :=
  verifyCall K PeerCertificates host i (poolAt K PeerCertificates host i)

/-- The anchors (`vrfyOpts.Roots`) handed to `Verify` for the certificate at index
`i` in the walk; `none` is the system trust store. -/
def anchorsAt (K : Crypto) (PeerCertificates : List Certificate) (host : String)
    (i : Nat) : Option (List Certificate) :=
  (vrfyOpts PeerCertificates.length host i (poolAt K PeerCertificates host i)).Roots

/-- The result of the parent-signature check of line 122 for index `i`. -/
def signedByParent (K : Crypto) (PeerCertificates : List Certificate) (i : Nat) : Bool :=
  K.CheckSignatureFrom (certAt PeerCertificates i)
    (certAt PeerCertificates (i + 1))

/-- The two checks of the walk above index `i` all passed: every `Verify` of the
indices `i, ..., n-1` succeeded and every parent-signature check of the indices
`i, ..., n-2` passed. -/
def walkOK (K : Crypto) (PeerCertificates : List Certificate) (host : String)
    (i : Nat) : Prop :=
  (∀ j, i ≤ j → j < PeerCertificates.length →
      (verifyAt K PeerCertificates host j).isSome = true) ∧
  (∀ j, i ≤ j → j + 1 < PeerCertificates.length →
      signedByParent K PeerCertificates j = true)

/-! ## Sample chains

Certificates and a library behaviour for concrete runs.  The raw bytes of a sample
certificate are `[serial, subject, issuer]`. -/

/-- A self-signed root certificate. -/
def rootCert : Certificate := ⟨[13, 2, 2], 0⟩

/-- An intermediate certificate issued by the root. -/
def interCert : Certificate := ⟨[11, 1, 2], 0⟩

/-- A second certificate of the same intermediate authority (another serial). -/
def interAlt : Certificate := ⟨[12, 1, 2], 0⟩

/-- A leaf issued by the intermediate authority. -/
def leafCert : Certificate := ⟨[10, 0, 1], 0⟩

/-- A leaf issued by the root directly. -/
def directLeaf : Certificate := ⟨[14, 0, 2], 0⟩

/-- The host name given on the command line in the sample runs. -/
def sampleHost : String := "example.org"

/-- A library behaviour for the sample runs: a signature verifies when the issuer
byte of the child is the subject byte of the parent; against the system store
`Verify` succeeds (with the one-element path) exactly when `systemTrusts`; against
the pool, `Verify` of `leaf` returns `leafResult` and `Verify` of any other
certificate succeeds with the one-element path. -/
def sampleCrypto (systemTrusts : Bool) (leaf : Certificate)
    (leafResult : Option (List (List Certificate))) (now : Int) : Crypto :=
  { CheckSignatureFrom := fun child parent =>
      decide (child.Raw.drop 2 = (parent.Raw.drop 1).take 1)
    Verify := fun cert opts =>
      match opts.Roots with
      | none => if systemTrusts then some [[cert]] else none
      | some _ => if cert = leaf then leafResult else some [[cert]]
    now := now }

/-- The signature relation of the sample certificates: the issuer byte of the child
is the subject byte of the parent. -/
def issuedBy (child parent : Certificate) : Bool :=
  decide (child.Raw.drop 2 = (parent.Raw.drop 1).take 1)

/-- The path building of `Verify` of crypto/x509 when no intermediates are given, as
in this program: a certificate that is itself in the roots yields the one path made
of it alone; otherwise every root that signed it yields a path of two; no path is an
error. -/
def x509Verify (roots : List Certificate) (cert : Certificate) :
    Option (List (List Certificate)) :=
  if roots.any (fun c => c.Equal cert) then some [[cert]]
  else if (roots.filter (fun r => issuedBy cert r)).isEmpty then none
  else some ((roots.filter (fun r => issuedBy cert r)).map (fun r => [cert, r]))

/-- A library behaviour for the sample runs that follows the roots handed to
`Verify`: the pool of line 137, or the system trust store `systemRoots` when `Roots`
is nil. -/
def x509Crypto (systemRoots : List Certificate) (now : Int) : Crypto :=
  { CheckSignatureFrom := issuedBy
    Verify := fun cert opts => x509Verify (opts.Roots.getD systemRoots) cert
    now := now }

/-- A property of `Verify` of crypto/x509: when the certificate to verify is itself
in `Roots` (`opts.Roots.contains(c)`), a successful call returns the one path made
of that certificate alone. -/
def rootIsOwnPath (K : Crypto) : Prop :=
  ∀ cert pool dns certChains,
    K.Verify cert { Roots := some pool, DNSName := dns } = some certChains →
    pool.any (fun c => c.Equal cert) = true → certChains = [[cert]]

/-- Lines 87-96: `tls.DialWithDialer` and `ConnectionState`, for a server that sends
the certificate message `presented`.  The handshake of crypto/tls fails on an empty
certificate message, so the peer certificates of a connection are never empty. -/
def DialWithDialer (presented : List Certificate) : Option (List Certificate) :=
  if presented = [] then none else some presented

/-- The function `main` with two command-line arguments: when the connection fails
it logs the error and returns without a verdict (lines 88-91); otherwise it walks the
peer certificates and prints the verdicts. -/
def main (K : Crypto) (presented : List Certificate) (host : String) : Option State :=
  match DialWithDialer presented with
  | none => none
  | some PeerCertificates => some (run K PeerCertificates host)

/-! ## The loop, iteration by iteration -/

theorem loop_succ_low (K : Crypto) (peer : List Certificate) (host : String)
    (lo k : Nat) (st : State) :
    loop K peer host lo (k + 1) st = iter K peer host lo (loop K peer host (lo + 1) k st) := by
  induction k generalizing st with
  | zero => simp [loop]
  | succ k ih =>
    rw [loop, ih]
    have h : lo + (k + 1) = lo + 1 + k := by omega
    rw [h]
    rfl

theorem run_eq_stateAfter (K : Crypto) (peer : List Certificate) (host : String) :
    run K peer host = stateAfter K peer host 0 := by
  simp [run, stateAfter]

theorem stateAfter_length (K : Crypto) (peer : List Certificate) (host : String) :
    stateAfter K peer host peer.length = init := by
  simp [stateAfter, loop]

theorem stateAfter_step (K : Crypto) (peer : List Certificate) (host : String)
    (i : Nat) (h : i < peer.length) :
    stateAfter K peer host i = iter K peer host i (stateAfter K peer host (i + 1)) := by
  unfold stateAfter
  have e : peer.length - i = (peer.length - (i + 1)) + 1 := by omega
  rw [e, loop_succ_low]

/-- Downward induction along the walk: a property of the initial state that every
iteration preserves holds after the iterations `n-1, ..., i`. -/
theorem stateAfter_induction (K : Crypto) (peer : List Certificate) (host : String)
    (P : Nat → State → Prop) (base : P peer.length init)
    (step : ∀ i, i < peer.length → P (i + 1) (stateAfter K peer host (i + 1)) →
      P i (iter K peer host i (stateAfter K peer host (i + 1)))) :
    ∀ i, i ≤ peer.length → P i (stateAfter K peer host i) := by
  have key : ∀ d i, i + d = peer.length → P i (stateAfter K peer host i) := by
    intro d
    induction d with
    | zero =>
      intro i hi
      have : i = peer.length := by omega
      subst this
      rw [stateAfter_length]
      exact base
    | succ d ih =>
      intro i hi
      have hlt : i < peer.length := by omega
      rw [stateAfter_step K peer host i hlt]
      exact step i hlt (ih (i + 1) (by omega))
  intro i hi
  exact key (peer.length - i) i (by omega)

/-- In the iteration of index `i` the result of `Verify` is `verifyAt`. -/
theorem verifyCall_stateAfter (K : Crypto) (peer : List Certificate) (host : String)
    (i : Nat) :
    verifyCall K peer host i
        (AddCert (stateAfter K peer host (i + 1)).certPool (certAt peer i)) =
      verifyAt K peer host i := rfl

/-! ## The fields after each stage of an iteration -/

theorem checkSignatures_fields (K : Crypto) (peer : List Certificate) (i : Nat)
    (st : State) :
    (checkSignatures K peer i st).certPool = st.certPool ∧
    (checkSignatures K peer i st).isRootKnownCert = st.isRootKnownCert ∧
    (checkSignatures K peer i st).isChainInOrder = st.isChainInOrder ∧
    (checkSignatures K peer i st).notAfterInDays = st.notAfterInDays ∧
    (checkSignatures K peer i st).isSelfsigned =
      (if i ≠ peer.length - 1 ∧
          K.CheckSignatureFrom (certAt peer i) (certAt peer i) = true
       then 1 else st.isSelfsigned) ∧
    (checkSignatures K peer i st).isChainValidated =
      (if i ≠ peer.length - 1 ∧ signedByParent K peer i = false then 0
       else st.isChainValidated) := by
  unfold checkSignatures signedByParent
  by_cases h1 : i ≠ peer.length - 1
  · cases h2 : K.CheckSignatureFrom (certAt peer i) (certAt peer (i + 1)) <;>
      cases h3 : K.CheckSignatureFrom (certAt peer i) (certAt peer i) <;>
      simp [h1, h2, h3]
  · simp [h1]

theorem recordVerify_fields (n i : Nat) (r : Option (List (List Certificate)))
    (st : State) :
    (recordVerify n i r st).certPool = st.certPool ∧
    (recordVerify n i r st).isSelfsigned = st.isSelfsigned ∧
    (recordVerify n i r st).isChainInOrder = st.isChainInOrder ∧
    (recordVerify n i r st).notAfterInDays = st.notAfterInDays ∧
    (recordVerify n i r st).isRootKnownCert =
      (if i ≠ n - 1 then
        (if r.isSome = true
         then (if st.isRootKnownCert = -1 then 1 else st.isRootKnownCert) else 0)
       else st.isRootKnownCert) ∧
    (recordVerify n i r st).isChainValidated =
      (if r.isSome = true
       then (if st.isChainValidated = -1 then 1 else st.isChainValidated) else 0) := by
  unfold recordVerify
  cases r with
  | none => by_cases h1 : i ≠ n - 1 <;> simp [h1]
  | some v =>
    by_cases h1 : i ≠ n - 1 <;> by_cases h2 : st.isRootKnownCert = -1 <;>
      by_cases h3 : st.isChainValidated = -1 <;> simp [h1, h2, h3]

theorem judgeLeaf_fields (K : Crypto) (peer : List Certificate) (i : Nat)
    (r : Option (List (List Certificate))) (st : State) :
    (judgeLeaf K peer i r st).certPool = st.certPool ∧
    (judgeLeaf K peer i r st).isSelfsigned = st.isSelfsigned ∧
    (judgeLeaf K peer i r st).isRootKnownCert = st.isRootKnownCert ∧
    (judgeLeaf K peer i r st).isChainInOrder =
      (if i = 0 then chainInOrder peer (r.getD []) else st.isChainInOrder) ∧
    (judgeLeaf K peer i r st).notAfterInDays =
      (if i = 0 then daysUntil (certAt peer 0).NotAfter K.now
       else st.notAfterInDays) ∧
    (judgeLeaf K peer i r st).isChainValidated =
      st.isChainValidated * (if i = 0 then chainInOrder peer (r.getD []) else 1) := by
  unfold judgeLeaf
  by_cases h1 : i = 0
  · subst h1; simp
  · simp [h1]

/-! ## The fields after one iteration -/

theorem iter_certPool (K : Crypto) (peer : List Certificate) (host : String) (i : Nat)
    (st : State) :
    (iter K peer host i st).certPool = AddCert st.certPool (certAt peer i) :=
  (judgeLeaf_fields K peer i _ _).1.trans
    ((recordVerify_fields peer.length i _ _).1.trans (checkSignatures_fields K peer i _).1)

theorem iter_isValidated (K : Crypto) (peer : List Certificate) (host : String) (i : Nat)
    (st : State) :
    (iter K peer host i st).isValidated =
      (iter K peer host i st).isRootKnownCert * (iter K peer host i st).isChainValidated :=
  rfl

theorem iter_isSelfsigned (K : Crypto) (peer : List Certificate) (host : String) (i : Nat)
    (st : State) :
    (iter K peer host i st).isSelfsigned =
      if i ≠ peer.length - 1 ∧
          K.CheckSignatureFrom (certAt peer i) (certAt peer i) = true
      then 1 else st.isSelfsigned :=
  (judgeLeaf_fields K peer i _ _).2.1.trans
    ((recordVerify_fields peer.length i _ _).2.1.trans
      (checkSignatures_fields K peer i _).2.2.2.2.1)

theorem iter_isRootKnownCert (K : Crypto) (peer : List Certificate) (host : String)
    (i : Nat) (st : State) :
    (iter K peer host i st).isRootKnownCert =
      if i ≠ peer.length - 1 then
        (if (verifyCall K peer host i (AddCert st.certPool (certAt peer i))).isSome = true
         then (if st.isRootKnownCert = -1 then 1 else st.isRootKnownCert) else 0)
      else st.isRootKnownCert := by
  have hj := (judgeLeaf_fields K peer i
    (verifyCall K peer host i (AddCert st.certPool (certAt peer i)))
    (recordVerify peer.length i
      (verifyCall K peer host i (AddCert st.certPool (certAt peer i)))
      (checkSignatures K peer i
        { st with certPool := AddCert st.certPool (certAt peer i) }))).2.2.1
  have hr := (recordVerify_fields peer.length i
      (verifyCall K peer host i (AddCert st.certPool (certAt peer i)))
      (checkSignatures K peer i
        { st with certPool := AddCert st.certPool (certAt peer i) })).2.2.2.2.1
  have hc := (checkSignatures_fields K peer i
        { st with certPool := AddCert st.certPool (certAt peer i) }).2.1
  rw [hc] at hr
  exact hj.trans hr

theorem iter_isChainInOrder (K : Crypto) (peer : List Certificate) (host : String)
    (i : Nat) (st : State) :
    (iter K peer host i st).isChainInOrder =
      if i = 0 then
        chainInOrder peer
          ((verifyCall K peer host i (AddCert st.certPool (certAt peer i))).getD [])
      else st.isChainInOrder := by
  have hj := (judgeLeaf_fields K peer i
    (verifyCall K peer host i (AddCert st.certPool (certAt peer i)))
    (recordVerify peer.length i
      (verifyCall K peer host i (AddCert st.certPool (certAt peer i)))
      (checkSignatures K peer i
        { st with certPool := AddCert st.certPool (certAt peer i) }))).2.2.2.1
  have hr := (recordVerify_fields peer.length i
      (verifyCall K peer host i (AddCert st.certPool (certAt peer i)))
      (checkSignatures K peer i
        { st with certPool := AddCert st.certPool (certAt peer i) })).2.2.1
  have hc := (checkSignatures_fields K peer i
        { st with certPool := AddCert st.certPool (certAt peer i) }).2.2.1
  rw [hc] at hr
  rw [hr] at hj
  exact hj

theorem iter_notAfterInDays (K : Crypto) (peer : List Certificate) (host : String)
    (i : Nat) (st : State) :
    (iter K peer host i st).notAfterInDays =
      if i = 0 then daysUntil (certAt peer 0).NotAfter K.now
      else st.notAfterInDays := by
  have hj := (judgeLeaf_fields K peer i
    (verifyCall K peer host i (AddCert st.certPool (certAt peer i)))
    (recordVerify peer.length i
      (verifyCall K peer host i (AddCert st.certPool (certAt peer i)))
      (checkSignatures K peer i
        { st with certPool := AddCert st.certPool (certAt peer i) }))).2.2.2.2.1
  have hr := (recordVerify_fields peer.length i
      (verifyCall K peer host i (AddCert st.certPool (certAt peer i)))
      (checkSignatures K peer i
        { st with certPool := AddCert st.certPool (certAt peer i) })).2.2.2.1
  have hc := (checkSignatures_fields K peer i
        { st with certPool := AddCert st.certPool (certAt peer i) }).2.2.2.1
  rw [hc] at hr
  rw [hr] at hj
  exact hj

/-- The value of `isChainValidated` after an iteration: the value of line 163
multiplied, in the iteration of the leaf, by `isChainInOrder` (line 181). -/
theorem iter_isChainValidated (K : Crypto) (peer : List Certificate) (host : String)
    (i : Nat) (st : State) :
    (iter K peer host i st).isChainValidated =
      (if (verifyCall K peer host i (AddCert st.certPool (certAt peer i))).isSome = true
        then (if i ≠ peer.length - 1 ∧ signedByParent K peer i = false then 0
              else if st.isChainValidated = -1 then 1 else st.isChainValidated)
        else 0) *
      (if i = 0 then
        chainInOrder peer
          ((verifyCall K peer host i (AddCert st.certPool (certAt peer i))).getD [])
       else 1) := by
  have hj := (judgeLeaf_fields K peer i
    (verifyCall K peer host i (AddCert st.certPool (certAt peer i)))
    (recordVerify peer.length i
      (verifyCall K peer host i (AddCert st.certPool (certAt peer i)))
      (checkSignatures K peer i
        { st with certPool := AddCert st.certPool (certAt peer i) }))).2.2.2.2.2
  have hr := (recordVerify_fields peer.length i
      (verifyCall K peer host i (AddCert st.certPool (certAt peer i)))
      (checkSignatures K peer i
        { st with certPool := AddCert st.certPool (certAt peer i) })).2.2.2.2.2
  have hc := (checkSignatures_fields K peer i
        { st with certPool := AddCert st.certPool (certAt peer i) }).2.2.2.2.2
  rw [hc] at hr
  rw [hr] at hj
  refine hj.trans ?_
  congr 1
  by_cases hA : i ≠ peer.length - 1 ∧ signedByParent K peer i = false
  · rw [if_pos hA, if_pos hA]; simp
  · rw [if_neg hA, if_neg hA]

/-! ## Invariants of the walk -/

theorem walkOK_step (K : Crypto) (peer : List Certificate) (host : String) (i : Nat)
    (h : i < peer.length) :
    walkOK K peer host i ↔
      (verifyAt K peer host i).isSome = true ∧
      (i + 1 < peer.length → signedByParent K peer i = true) ∧
      walkOK K peer host (i + 1) := by
  unfold walkOK
  constructor
  · rintro ⟨hv, hs⟩
    exact ⟨hv i (Nat.le_refl i) h, fun h1 => hs i (Nat.le_refl i) h1,
      fun j hj hj1 => hv j (by omega) hj1, fun j hj hj1 => hs j (by omega) hj1⟩
  · rintro ⟨h0, h1, hv, hs⟩
    refine ⟨fun j hj hj1 => ?_, fun j hj hj1 => ?_⟩
    · rcases Nat.eq_or_lt_of_le hj with e | l
      · subst e; exact h0
      · exact hv j l hj1
    · rcases Nat.eq_or_lt_of_le hj with e | l
      · subst e; exact h1 hj1
      · exact hs j l hj1

/-- The value of `isChainValidated` at line 163 of the iteration of index `i` is 1
when all checks of the indices `i, ..., n-1` passed and 0 otherwise, provided the
iteration started from -1 (outermost certificate) or from the same summary of the
indices above `i`. -/
theorem validated_line163 (K : Crypto) (peer : List Certificate) (host : String)
    (i : Nat) (h : i < peer.length) (cv : Int)
    (hout : i + 1 = peer.length → cv = -1)
    (hin : i + 1 < peer.length →
      (walkOK K peer host (i + 1) → cv = 1) ∧ (¬ walkOK K peer host (i + 1) → cv = 0)) :
    (walkOK K peer host i →
      (if (verifyAt K peer host i).isSome = true
        then (if i ≠ peer.length - 1 ∧ signedByParent K peer i = false then 0
              else if cv = -1 then 1 else cv)
        else 0) = 1) ∧
    (¬ walkOK K peer host i →
      (if (verifyAt K peer host i).isSome = true
        then (if i ≠ peer.length - 1 ∧ signedByParent K peer i = false then 0
              else if cv = -1 then 1 else cv)
        else 0) = 0) := by
  rw [walkOK_step K peer host i h]
  by_cases hv : (verifyAt K peer host i).isSome = true
  · rw [if_pos hv]
    rcases Nat.eq_or_lt_of_le (Nat.succ_le_of_lt h) with e | l
    · have e1 : i + 1 = peer.length := e
      have hne : ¬ (i ≠ peer.length - 1 ∧ signedByParent K peer i = false) := by
        rintro ⟨h1, _⟩; omega
      have hw : walkOK K peer host (i + 1) :=
        ⟨fun j hj hj1 => by omega, fun j hj hj1 => by omega⟩
      rw [if_neg hne, hout e1]
      constructor
      · intro _; simp
      · intro hn
        exact absurd ⟨hv, fun h1 => by omega, hw⟩ hn
    · have l1 : i + 1 < peer.length := l
      have hi : i ≠ peer.length - 1 := by omega
      obtain ⟨hin1, hin0⟩ := hin l1
      cases hs : signedByParent K peer i
      · rw [if_pos ⟨hi, rfl⟩]
        constructor
        · rintro ⟨_, h2, _⟩
          have := h2 l1
          simp at this
        · intro _; rfl
      · have hne : ¬ (i ≠ peer.length - 1 ∧ true = false) := by simp
        rw [if_neg hne]
        by_cases hw : walkOK K peer host (i + 1)
        · rw [hin1 hw]
          constructor
          · intro _; simp
          · intro hn; exact absurd ⟨hv, fun _ => rfl, hw⟩ hn
        · rw [hin0 hw]
          constructor
          · rintro ⟨_, _, h3⟩; exact absurd h3 hw
          · intro _; simp
  · rw [if_neg hv]
    constructor
    · rintro ⟨h1, _⟩; exact absurd h1 hv
    · intro _; rfl

/-- After the iterations `n-1, ..., i` with `i ≥ 1`, `isChainValidated` is -1 when no
iteration has run, and otherwise 1 or 0 according to whether all checks passed. -/
theorem stateAfter_isChainValidated (K : Crypto) (peer : List Certificate) (host : String)
    (i : Nat) (hi : i ≤ peer.length) :
    (i = peer.length → (stateAfter K peer host i).isChainValidated = -1) ∧
    (0 < i → i < peer.length →
      (walkOK K peer host i → (stateAfter K peer host i).isChainValidated = 1) ∧
      (¬ walkOK K peer host i → (stateAfter K peer host i).isChainValidated = 0)) := by
  refine stateAfter_induction K peer host
    (fun i st => (i = peer.length → st.isChainValidated = -1) ∧
      (0 < i → i < peer.length →
        (walkOK K peer host i → st.isChainValidated = 1) ∧
        (¬ walkOK K peer host i → st.isChainValidated = 0)))
    ⟨fun _ => rfl, fun _ h => absurd h (Nat.lt_irrefl _)⟩ ?_ i hi
  intro j hj ih
  refine ⟨fun e => by omega, fun hpos _ => ?_⟩
  have hval := validated_line163 K peer host j hj
    (stateAfter K peer host (j + 1)).isChainValidated ih.1
    (fun l => ih.2 (Nat.succ_pos j) l)
  have hj0 : j ≠ 0 := by omega
  rw [iter_isChainValidated, verifyCall_stateAfter, if_neg hj0, Int.mul_one]
  exact hval

/-! ## The order judgement -/

theorem orderInner_one (ps cs : List Certificate) :
    orderInner ps cs 1 = 0 ∨ orderInner ps cs 1 = 1 := by
  induction ps generalizing cs with
  | nil => right; simp [orderInner]
  | cons p ps ih =>
    cases cs with
    | nil => right; simp [orderInner]
    | cons c cs =>
      rw [orderInner]
      by_cases h : (!(p.Equal c)) = true
      · left; rw [if_pos h]
      · rw [if_neg h]; exact ih cs

/-- On two lists of the same length the inner loop leaves 1 exactly when the lists
agree (by `Equal`) at every position. -/
theorem orderInner_eq_one_iff (ps cs : List Certificate) (h : cs.length = ps.length) :
    orderInner ps cs 1 = 1 ↔
      ∀ j, j < ps.length → (certAt ps j).Equal (certAt cs j) = true := by
  induction ps generalizing cs with
  | nil => simp [orderInner]
  | cons p ps ih =>
    cases cs with
    | nil => simp at h
    | cons c cs =>
      have hl : cs.length = ps.length := by simpa using h
      rw [orderInner]
      by_cases hpc : p.Equal c = true
      · have hn : ¬ ((!(p.Equal c)) = true) := by simp [hpc]
        rw [if_neg hn, ih cs hl]
        constructor
        · intro hall j hj
          cases j with
          | zero => simpa [certAt] using hpc
          | succ j =>
            have := hall j (by simpa using hj)
            simpa [certAt] using this
        · intro hall j hj
          have := hall (j + 1) (by simpa using hj)
          simpa [certAt] using this
      · have hy : (!(p.Equal c)) = true := by simpa using hpc
        rw [if_pos hy]
        constructor
        · intro h0; exact absurd h0 (by decide)
        · intro hall
          have := hall 0 (by simp)
          exact absurd (by simpa [certAt] using this) hpc

theorem chainInOrder_nil (peer : List Certificate) : chainInOrder peer [] = 0 := rfl

/-- The loop over `certChains` keeps the verdict of the last chain only. -/
theorem chainInOrder_append_last (peer : List Certificate)
    (earlier : List (List Certificate)) (last : List Certificate) :
    chainInOrder peer (earlier ++ [last]) =
      if last.length = peer.length then orderInner peer last 1 else 1 := by
  simp [chainInOrder, List.foldl_append, orderBody]

theorem chainInOrder_zero_or_one (peer : List Certificate)
    (certChains : List (List Certificate)) :
    chainInOrder peer certChains = 0 ∨ chainInOrder peer certChains = 1 := by
  rcases List.eq_nil_or_concat certChains with h | ⟨earlier, last, h⟩
  · left; rw [h]; rfl
  · rw [h, List.concat_eq_append, chainInOrder_append_last]
    by_cases hl : last.length = peer.length
    · rw [if_pos hl]; exact orderInner_one peer last
    · rw [if_neg hl]; right; rfl

/-! ## The final state of a walk over a non-empty chain -/

theorem run_eq_iter_leaf (K : Crypto) (peer : List Certificate) (host : String)
    (h : peer ≠ []) :
    run K peer host = iter K peer host 0 (stateAfter K peer host 1) := by
  rw [run_eq_stateAfter]
  exact stateAfter_step K peer host 0 (List.length_pos.mpr h)

theorem run_isChainInOrder (K : Crypto) (peer : List Certificate) (host : String)
    (h : peer ≠ []) :
    (run K peer host).isChainInOrder =
      chainInOrder peer ((verifyAt K peer host 0).getD []) := by
  rw [run_eq_iter_leaf K peer host h, iter_isChainInOrder, verifyCall_stateAfter]
  simp

theorem run_notAfterInDays (K : Crypto) (peer : List Certificate) (host : String)
    (h : peer ≠ []) :
    (run K peer host).notAfterInDays = daysUntil (certAt peer 0).NotAfter K.now := by
  rw [run_eq_iter_leaf K peer host h, iter_notAfterInDays]
  simp

/-- The final `isChainValidated` of a non-empty chain is 1 when all checks passed
and the order verdict is 1, and 0 otherwise. -/
theorem run_isChainValidated (K : Crypto) (peer : List Certificate) (host : String)
    (h : peer ≠ []) :
    (walkOK K peer host 0 ∧ (run K peer host).isChainInOrder = 1 →
      (run K peer host).isChainValidated = 1) ∧
    (¬ (walkOK K peer host 0 ∧ (run K peer host).isChainInOrder = 1) →
      (run K peer host).isChainValidated = 0) := by
  have hpos : 0 < peer.length := List.length_pos.mpr h
  have hinv := stateAfter_isChainValidated K peer host 1 hpos
  have hval := validated_line163 K peer host 0 hpos
    (stateAfter K peer host (0 + 1)).isChainValidated
    (fun e => hinv.1 (by omega)) (fun l => hinv.2 Nat.one_pos (by omega))
  have hio := run_isChainInOrder K peer host h
  have hcv : (run K peer host).isChainValidated =
      (if (verifyAt K peer host 0).isSome = true
        then (if 0 ≠ peer.length - 1 ∧ signedByParent K peer 0 = false then 0
              else if (stateAfter K peer host (0 + 1)).isChainValidated = -1 then 1
              else (stateAfter K peer host (0 + 1)).isChainValidated)
        else 0) * chainInOrder peer ((verifyAt K peer host 0).getD []) := by
    rw [run_eq_iter_leaf K peer host h, iter_isChainValidated, verifyCall_stateAfter,
      if_pos rfl]
  rw [hcv, hio]
  constructor
  · rintro ⟨hw, ho⟩
    rw [hval.1 hw, ho]; rfl
  · intro hn
    by_cases hw : walkOK K peer host 0
    · rcases chainInOrder_zero_or_one peer ((verifyAt K peer host 0).getD []) with z | o
      · rw [z]; simp
      · exact absurd ⟨hw, o⟩ hn
    · rw [hval.2 hw]; simp

/-- After the iterations `n-1, ..., i`, `isRootKnownCert` is still -1 when only the
outermost certificate (or none) has been processed; otherwise it is 0 when the
verification of some processed certificate other than the outermost failed, and 1
when none did. -/
theorem stateAfter_isRootKnownCert (K : Crypto) (peer : List Certificate) (host : String)
    (i : Nat) (hi : i ≤ peer.length) :
    (peer.length ≤ i + 1 → (stateAfter K peer host i).isRootKnownCert = -1) ∧
    (i + 1 < peer.length →
      ((∃ j, i ≤ j ∧ j + 1 < peer.length ∧ (verifyAt K peer host j).isSome = false) →
        (stateAfter K peer host i).isRootKnownCert = 0) ∧
      ((¬ ∃ j, i ≤ j ∧ j + 1 < peer.length ∧ (verifyAt K peer host j).isSome = false) →
        (stateAfter K peer host i).isRootKnownCert = 1)) := by
  refine stateAfter_induction K peer host
    (fun i st => (peer.length ≤ i + 1 → st.isRootKnownCert = -1) ∧
      (i + 1 < peer.length →
        ((∃ j, i ≤ j ∧ j + 1 < peer.length ∧ (verifyAt K peer host j).isSome = false) →
          st.isRootKnownCert = 0) ∧
        ((¬ ∃ j, i ≤ j ∧ j + 1 < peer.length ∧ (verifyAt K peer host j).isSome = false) →
          st.isRootKnownCert = 1)))
    ⟨fun _ => rfl, fun h => by omega⟩ ?_ i hi
  intro j hj ih
  rw [iter_isRootKnownCert, verifyCall_stateAfter]
  constructor
  · intro hle
    have e : ¬ (j ≠ peer.length - 1) := by omega
    rw [if_neg e]
    exact ih.1 (by omega)
  · intro hlt
    have e : j ≠ peer.length - 1 := by omega
    rw [if_pos e]
    cases hv : (verifyAt K peer host j).isSome
    · rw [if_neg (by simp)]
      exact ⟨fun _ => rfl, fun hn => absurd ⟨j, Nat.le_refl j, hlt, hv⟩ hn⟩
    · rw [if_pos rfl]
      have hshift : (∃ k, j ≤ k ∧ k + 1 < peer.length ∧
            (verifyAt K peer host k).isSome = false) ↔
          (∃ k, j + 1 ≤ k ∧ k + 1 < peer.length ∧
            (verifyAt K peer host k).isSome = false) := by
        constructor
        · rintro ⟨k, hk, hk1, hk2⟩
          rcases Nat.eq_or_lt_of_le hk with e1 | l1
          · subst e1; rw [hv] at hk2; exact absurd hk2 (by decide)
          · exact ⟨k, l1, hk1, hk2⟩
        · rintro ⟨k, hk, hk1, hk2⟩
          exact ⟨k, by omega, hk1, hk2⟩
      rw [hshift]
      by_cases hlast : peer.length ≤ j + 1 + 1
      · rw [ih.1 hlast, if_pos rfl]
        constructor
        · rintro ⟨k, hk, hk1, _⟩; omega
        · intro _; rfl
      · have hlt2 : j + 1 + 1 < peer.length := by omega
        obtain ⟨h0, h1⟩ := ih.2 hlt2
        constructor
        · intro hex
          rw [h0 hex]; rfl
        · intro hnex
          rw [h1 hnex]; rfl

/-! ## The certificate pool -/

theorem AddCert_has (certPool : List Certificate) (cert : Certificate) :
    ∃ c, c ∈ AddCert certPool cert ∧ c.Equal cert = true := by
  unfold AddCert
  by_cases h : certPool.any (fun c => c.Equal cert) = true
  · rw [if_pos h]
    obtain ⟨c, hc, he⟩ := List.any_eq_true.mp h
    exact ⟨c, hc, he⟩
  · rw [if_neg h]
    exact ⟨cert, by simp, by simp [Certificate.Equal]⟩

theorem certAt_of_lt (peer : List Certificate) (i : Nat) (h : i < peer.length) :
    certAt peer i = peer.get ⟨i, h⟩ := by
  simp [certAt, List.getD_eq_getElem?_getD, List.getElem?_eq_getElem h]

/-- After the iterations `n-1, ..., i` the pool holds the certificates of the indices
`n-1, ..., i`, added in that order. -/
theorem stateAfter_certPool (K : Crypto) (peer : List Certificate) (host : String)
    (i : Nat) (hi : i ≤ peer.length) :
    (stateAfter K peer host i).certPool = (peer.drop i).reverse.foldl AddCert [] := by
  refine stateAfter_induction K peer host
    (fun i st => st.certPool = (peer.drop i).reverse.foldl AddCert [])
    (by show init.certPool = _; rw [List.drop_length]; rfl) ?_ i hi
  intro j hj ih
  rw [iter_certPool, ih, certAt_of_lt peer j hj]
  have hd : peer.drop j = peer.get ⟨j, hj⟩ :: peer.drop (j + 1) :=
    List.drop_eq_getElem_cons hj
  rw [hd, List.reverse_cons, List.foldl_append]
  rfl

theorem poolAt_eq (K : Crypto) (peer : List Certificate) (host : String)
    (i : Nat) (hi : i < peer.length) :
    poolAt K peer host i = (peer.drop i).reverse.foldl AddCert [] := by
  have h1 := stateAfter_certPool K peer host i (Nat.le_of_lt hi)
  rw [stateAfter_step K peer host i hi, iter_certPool] at h1
  exact h1

/-! ## Rounding to float64 -/

theorem roundHalfEven_floor_le (y : ℚ) : ⌊y⌋ ≤ roundHalfEven y := by
  unfold roundHalfEven
  split_ifs <;> omega

theorem roundHalfEven_le_floor_succ (y : ℚ) : roundHalfEven y ≤ ⌊y⌋ + 1 := by
  unfold roundHalfEven
  split_ifs <;> omega

theorem roundHalfEven_error (y : ℚ) :
    (roundHalfEven y : ℚ) - y ≤ 1 / 2 ∧ y - roundHalfEven y ≤ 1 / 2 := by
  have h1 : (⌊y⌋ : ℚ) ≤ y := Int.floor_le y
  have h2 : y < ⌊y⌋ + 1 := Int.lt_floor_add_one y
  unfold roundHalfEven
  split_ifs with a b c
  · constructor <;> linarith
  · push_cast; constructor <;> linarith
  · constructor <;> linarith
  · push_cast; constructor <;> linarith

theorem le_roundHalfEven (N : ℤ) (y : ℚ) (h : (N : ℚ) ≤ y) : N ≤ roundHalfEven y :=
  le_trans (Int.le_floor.mpr h) (roundHalfEven_floor_le y)

theorem roundHalfEven_le (N : ℤ) (y : ℚ) (h : y ≤ (N : ℚ)) : roundHalfEven y ≤ N := by
  have hfl : ⌊y⌋ ≤ N := by
    have : (⌊y⌋ : ℚ) ≤ N := le_trans (Int.floor_le y) h
    exact_mod_cast this
  by_cases hs : ⌊y⌋ + 1 ≤ N
  · exact le_trans (roundHalfEven_le_floor_succ y) hs
  · have he : ⌊y⌋ = N := by omega
    have hy : y - ⌊y⌋ < 1 / 2 := by
      rw [he]; linarith
    unfold roundHalfEven
    rw [if_pos hy, he]

theorem two_zpow_pos (k : ℤ) : (0 : ℚ) < 2 ^ k := zpow_pos (by norm_num) k

theorem roundFloat64_nonneg (x : ℚ) (h : 0 ≤ x) : 0 ≤ roundFloat64 x := by
  unfold roundFloat64
  split_ifs with h0
  · exact le_refl 0
  · have hy : ((0 : ℤ) : ℚ) ≤ x * 2 ^ (52 - Int.log 2 |x|) := by
      have := two_zpow_pos (52 - Int.log 2 |x|)
      push_cast
      positivity
    have := le_roundHalfEven 0 _ hy
    have hc : (0 : ℚ) ≤ (roundHalfEven (x * 2 ^ (52 - Int.log 2 |x|)) : ℚ) := by
      exact_mod_cast this
    exact div_nonneg hc (le_of_lt (two_zpow_pos _))

theorem roundFloat64_nonpos (x : ℚ) (h : x ≤ 0) : roundFloat64 x ≤ 0 := by
  unfold roundFloat64
  split_ifs with h0
  · exact le_refl 0
  · have hy : x * 2 ^ (52 - Int.log 2 |x|) ≤ ((0 : ℤ) : ℚ) := by
      have := two_zpow_pos (52 - Int.log 2 |x|)
      push_cast
      exact mul_nonpos_of_nonpos_of_nonneg h (le_of_lt this)
    have := roundHalfEven_le 0 _ hy
    have hc : (roundHalfEven (x * 2 ^ (52 - Int.log 2 |x|)) : ℚ) ≤ 0 := by
      exact_mod_cast this
    exact div_nonpos_of_nonpos_of_nonneg hc (le_of_lt (two_zpow_pos _))

/-- Below 2^m in magnitude the binary exponent is below m. -/
theorem log_lt_of_abs_lt (x : ℚ) (h0 : x ≠ 0) (m : ℤ) (hx : |x| < 2 ^ m) :
    Int.log 2 |x| < m := by
  have hpos : (0 : ℚ) < |x| := abs_pos.mpr h0
  have := (Int.lt_zpow_iff_log_lt (R := ℚ) (b := 2) (by norm_num) (x := m) hpos).mp
    (by simpa using hx)
  exact this

theorem roundFloat64_le_int (x : ℚ) (N : ℤ) (hx : |x| < 2 ^ (53 : ℤ)) (h : x ≤ N) :
    roundFloat64 x ≤ N := by
  unfold roundFloat64
  split_ifs with h0
  · rw [h0] at h; exact h
  · have hlog := log_lt_of_abs_lt x h0 53 hx
    have hk : 0 ≤ 52 - Int.log 2 |x| := by omega
    obtain ⟨n, hn⟩ := Int.eq_ofNat_of_zero_le hk
    rw [hn]
    have hp : (0 : ℚ) < 2 ^ (n : ℤ) := two_zpow_pos _
    have hcast : ((N * 2 ^ n : ℤ) : ℚ) = N * 2 ^ (n : ℤ) := by
      push_cast; rw [zpow_natCast]
    have hy : x * 2 ^ (n : ℤ) ≤ ((N * 2 ^ n : ℤ) : ℚ) := by
      rw [hcast]
      exact mul_le_mul_of_nonneg_right h (le_of_lt hp)
    have hr := roundHalfEven_le _ _ hy
    have hc : (roundHalfEven (x * 2 ^ (n : ℤ)) : ℚ) ≤ N * 2 ^ (n : ℤ) := by
      rw [← hcast]; exact_mod_cast hr
    rw [div_le_iff₀ hp]
    exact hc

theorem int_le_roundFloat64 (x : ℚ) (N : ℤ) (hx : |x| < 2 ^ (53 : ℤ)) (h : (N : ℚ) ≤ x) :
    (N : ℚ) ≤ roundFloat64 x := by
  unfold roundFloat64
  split_ifs with h0
  · rw [h0] at h; exact h
  · have hlog := log_lt_of_abs_lt x h0 53 hx
    have hk : 0 ≤ 52 - Int.log 2 |x| := by omega
    obtain ⟨n, hn⟩ := Int.eq_ofNat_of_zero_le hk
    rw [hn]
    have hp : (0 : ℚ) < 2 ^ (n : ℤ) := two_zpow_pos _
    have hcast : ((N * 2 ^ n : ℤ) : ℚ) = N * 2 ^ (n : ℤ) := by
      push_cast; rw [zpow_natCast]
    have hy : ((N * 2 ^ n : ℤ) : ℚ) ≤ x * 2 ^ (n : ℤ) := by
      rw [hcast]
      exact mul_le_mul_of_nonneg_right h (le_of_lt hp)
    have hr := le_roundHalfEven _ _ hy
    have hc : (N : ℚ) * 2 ^ (n : ℤ) ≤ (roundHalfEven (x * 2 ^ (n : ℤ)) : ℚ) := by
      rw [← hcast]; exact_mod_cast hr
    rw [le_div_iff₀ hp]
    exact hc

theorem roundFloat64_int (N : ℤ) (h : |(N : ℚ)| < 2 ^ (53 : ℤ)) :
    roundFloat64 N = N :=
  le_antisymm (roundFloat64_le_int N N h (le_refl _)) (int_le_roundFloat64 N N h (le_refl _))

theorem roundFloat64_error (x : ℚ) (m : ℤ) (hx : |x| < 2 ^ m) :
    |roundFloat64 x - x| ≤ 2 ^ (m - 54) := by
  unfold roundFloat64
  split_ifs with h0
  · rw [h0]; simp; exact le_of_lt (two_zpow_pos _)
  · have hlog := log_lt_of_abs_lt x h0 m hx
    set k : ℤ := 52 - Int.log 2 |x| with hkdef
    have hp : (0 : ℚ) < 2 ^ k := two_zpow_pos _
    obtain ⟨e1, e2⟩ := roundHalfEven_error (x * 2 ^ k)
    have hrew : (roundHalfEven (x * 2 ^ k) : ℚ) / 2 ^ k - x =
        ((roundHalfEven (x * 2 ^ k) : ℚ) - x * 2 ^ k) / 2 ^ k := by
      field_simp
      ring
    rw [hrew, abs_div, abs_of_pos hp, div_le_iff₀ hp]
    have habs : |(roundHalfEven (x * 2 ^ k) : ℚ) - x * 2 ^ k| ≤ 1 / 2 := by
      rw [abs_le]; constructor <;> linarith
    refine le_trans habs ?_
    have hmk : (2 : ℚ) ^ (m - 54) * 2 ^ k = 2 ^ (m - 54 + k) := by
      rw [← zpow_add₀ (by norm_num : (2 : ℚ) ≠ 0)]
    rw [hmk]
    have hge : (-1 : ℤ) ≤ m - 54 + k := by omega
    have : (2 : ℚ) ^ (-1 : ℤ) ≤ 2 ^ (m - 54 + k) :=
      zpow_le_zpow_right₀ (by norm_num) hge
    calc (1 : ℚ) / 2 = 2 ^ (-1 : ℤ) := by norm_num
      _ ≤ _ := this

/-! ## The hours of a duration -/

theorem truncToInt_le (s : ℚ) (N : ℤ) (h : s ≤ N) : truncToInt s ≤ N := by
  unfold truncToInt
  split_ifs with h0
  · have : (⌊s⌋ : ℚ) ≤ N := le_trans (Int.floor_le s) h
    exact_mod_cast this
  · exact Int.ceil_le.mpr h

theorem le_truncToInt (s : ℚ) (N : ℤ) (hN : N ≤ 0) (h : (N : ℚ) - 1 < s) :
    N ≤ truncToInt s := by
  unfold truncToInt
  split_ifs with h0
  · have : (0 : ℤ) ≤ ⌊s⌋ := Int.floor_nonneg.mpr h0
    omega
  · have h1 : s ≤ (⌈s⌉ : ℚ) := Int.le_ceil s
    have h2 : (N : ℚ) - 1 < (⌈s⌉ : ℚ) := lt_of_lt_of_le h h1
    have h3 : N - 1 < ⌈s⌉ := by exact_mod_cast h2
    omega

theorem truncToInt_nonneg (s : ℚ) (h : 0 ≤ s) : 0 ≤ truncToInt s := by
  unfold truncToInt
  rw [if_pos h]
  exact Int.floor_nonneg.mpr h

theorem hoursInt_nonneg (d : Int) (h : 0 ≤ d) : 0 ≤ hoursInt d := by
  unfold hoursInt Hours
  apply truncToInt_nonneg
  apply roundFloat64_nonneg
  have h1 : 0 ≤ Int.tdiv d Hour := Int.tdiv_nonneg h (by decide)
  have h2 : 0 ≤ Int.tmod d Hour := by
    rw [Int.tmod_eq_emod h (by decide)]
    exact Int.emod_nonneg _ (by decide)
  have q1 : (0 : ℚ) ≤ ((Int.tdiv d Hour : ℤ) : ℚ) := by exact_mod_cast h1
  have q2 : (0 : ℚ) ≤ ((Int.tmod d Hour : ℤ) : ℚ) := by exact_mod_cast h2
  have r1 := roundFloat64_nonneg _ q1
  have r2 := roundFloat64_nonneg _ q2
  have r3 := roundFloat64_nonneg (roundFloat64 ((Int.tmod d Hour : ℤ) : ℚ) / 3600000000000)
    (div_nonneg r2 (by norm_num))
  linarith

/-- The two conversions and the quotient of `Hours` for a duration of `-a`
nanoseconds, `0 < a ≤ 2^63`: both conversions are exact and the rounded quotient
lies between `-(a % Hour) / Hour - 2^-54` and 0. -/
theorem Hours_neg_parts (a : Int) (ha : 0 < a) (hb : a ≤ 9223372036854775808) :
    Hours (-a) = roundFloat64 (-((a / 3600000000000 : ℤ) : ℚ) +
        roundFloat64 (-((a % 3600000000000 : ℤ) : ℚ) / 3600000000000)) ∧
    roundFloat64 (-((a % 3600000000000 : ℤ) : ℚ) / 3600000000000) ≤ 0 ∧
    -((a % 3600000000000 : ℤ) : ℚ) / 3600000000000 - 2 ^ (-54 : ℤ) ≤
      roundFloat64 (-((a % 3600000000000 : ℤ) : ℚ) / 3600000000000) := by
  have hdiv : Int.tdiv (-a) Hour = -(a / 3600000000000) := by
    rw [Int.neg_tdiv, Int.tdiv_eq_ediv (le_of_lt ha) (by decide)]; rfl
  have hmod : Int.tmod (-a) Hour = -(a % 3600000000000) := by
    have e := Int.tmod_add_tdiv (-a) Hour
    have e2 := Int.emod_add_ediv a 3600000000000
    rw [hdiv] at e
    have hH : Hour = 3600000000000 := rfl
    rw [hH] at e
    rw [hH]
    linarith
  have hh0 : 0 ≤ a / 3600000000000 := Int.ediv_nonneg (le_of_lt ha) (by decide)
  have hhb : a / 3600000000000 < 4194304 := by omega
  have hn0 : 0 ≤ a % 3600000000000 := Int.emod_nonneg _ (by decide)
  have hnb : a % 3600000000000 < 3600000000000 := Int.emod_lt_of_pos _ (by decide)
  have qh0 : (0 : ℚ) ≤ ((a / 3600000000000 : ℤ) : ℚ) := by exact_mod_cast hh0
  have qhb : ((a / 3600000000000 : ℤ) : ℚ) < 4194304 := by exact_mod_cast hhb
  have qn0 : (0 : ℚ) ≤ ((a % 3600000000000 : ℤ) : ℚ) := by exact_mod_cast hn0
  have qnb : ((a % 3600000000000 : ℤ) : ℚ) < 3600000000000 := by exact_mod_cast hnb
  have p53 : (2 : ℚ) ^ (53 : ℤ) = 9007199254740992 := by norm_num
  have c1 : roundFloat64 (((-(a / 3600000000000) : ℤ)) : ℚ) =
      ((-(a / 3600000000000) : ℤ) : ℚ) := by
    apply roundFloat64_int
    rw [p53, abs_lt]
    push_cast
    constructor <;> linarith
  have c2 : roundFloat64 (((-(a % 3600000000000) : ℤ)) : ℚ) =
      ((-(a % 3600000000000) : ℤ) : ℚ) := by
    apply roundFloat64_int
    rw [p53, abs_lt]
    push_cast
    constructor <;> linarith
  have hx0 : -((a % 3600000000000 : ℤ) : ℚ) / 3600000000000 ≤ 0 := by
    apply div_nonpos_of_nonpos_of_nonneg <;> linarith
  have hx1 : -1 < -((a % 3600000000000 : ℤ) : ℚ) / 3600000000000 := by
    rw [lt_div_iff₀ (by norm_num)]
    linarith
  refine ⟨?_, roundFloat64_nonpos _ hx0, ?_⟩
  · unfold Hours
    rw [hdiv, hmod, c1, c2]
    push_cast
    rfl
  · have habs : |(-((a % 3600000000000 : ℤ) : ℚ) / 3600000000000)| < 2 ^ (0 : ℤ) := by
      rw [abs_lt]
      constructor
      · simpa using hx1
      · have : (0 : ℚ) < 2 ^ (0 : ℤ) := two_zpow_pos 0
        linarith
    have herr := roundFloat64_error _ 0 habs
    rw [abs_le] at herr
    have : ((0 : ℤ) - 54) = (-54 : ℤ) := by norm_num
    rw [this] at herr
    linarith [herr.1]

/-- For an expired duration the hour count is at most the exact number of whole
hours, negated: the float64 sum is never nearer to zero than the whole hours. -/
theorem hoursInt_neg_le (a : Int) (ha : 0 < a) (hb : a ≤ 9223372036854775808) :
    hoursInt (-a) ≤ -(a / 3600000000000) := by
  obtain ⟨hH, hq0, hq1⟩ := Hours_neg_parts a ha hb
  have hh0 : 0 ≤ a / 3600000000000 := Int.ediv_nonneg (le_of_lt ha) (by decide)
  have hhb : a / 3600000000000 < 4194304 := by omega
  have hn0 : 0 ≤ a % 3600000000000 := Int.emod_nonneg _ (by decide)
  have hnb : a % 3600000000000 < 3600000000000 := Int.emod_lt_of_pos _ (by decide)
  have qh0 : (0 : ℚ) ≤ ((a / 3600000000000 : ℤ) : ℚ) := by exact_mod_cast hh0
  have qhb : ((a / 3600000000000 : ℤ) : ℚ) < 4194304 := by exact_mod_cast hhb
  have qn0 : (0 : ℚ) ≤ ((a % 3600000000000 : ℤ) : ℚ) := by exact_mod_cast hn0
  have qnb : ((a % 3600000000000 : ℤ) : ℚ) < 3600000000000 := by exact_mod_cast hnb
  have hx1 : -1 < -((a % 3600000000000 : ℤ) : ℚ) / 3600000000000 := by
    rw [lt_div_iff₀ (by norm_num)]
    linarith
  have p53 : (2 : ℚ) ^ (53 : ℤ) = 9007199254740992 := by norm_num
  have p54 : (2 : ℚ) ^ (-54 : ℤ) = 1 / 18014398509481984 := by norm_num
  unfold hoursInt
  rw [hH]
  apply truncToInt_le
  have hcast : ((-(a / 3600000000000) : ℤ) : ℚ) = -((a / 3600000000000 : ℤ) : ℚ) := by
    push_cast; rfl
  rw [hcast, ← Int.cast_neg]
  apply roundFloat64_le_int
  · rw [p53, abs_lt]
    rw [p54] at hq1
    constructor <;> linarith
  · push_cast
    linarith

/-- For an expired duration of less than 48 hours the hour count is the exact number
of whole hours, negated: the float64 rounding does not reach the next whole hour. -/
theorem hoursInt_neg_small (a : Int) (ha : 0 < a) (hs : a < 48 * 3600000000000) :
    hoursInt (-a) = -(a / 3600000000000) := by
  have hb : a ≤ 9223372036854775808 := by omega
  apply le_antisymm (hoursInt_neg_le a ha hb)
  obtain ⟨hH, hq0, hq1⟩ := Hours_neg_parts a ha hb
  have hh0 : 0 ≤ a / 3600000000000 := Int.ediv_nonneg (le_of_lt ha) (by decide)
  have hhb : a / 3600000000000 < 48 := by omega
  have hn0 : 0 ≤ a % 3600000000000 := Int.emod_nonneg _ (by decide)
  have hnb : a % 3600000000000 ≤ 3600000000000 - 1 := by
    have := Int.emod_lt_of_pos a (by decide : (0 : Int) < 3600000000000)
    omega
  have qh0 : (0 : ℚ) ≤ ((a / 3600000000000 : ℤ) : ℚ) := by exact_mod_cast hh0
  have qhb : ((a / 3600000000000 : ℤ) : ℚ) < 48 := by exact_mod_cast hhb
  have qn0 : (0 : ℚ) ≤ ((a % 3600000000000 : ℤ) : ℚ) := by exact_mod_cast hn0
  have qnb : ((a % 3600000000000 : ℤ) : ℚ) ≤ 3600000000000 - 1 := by exact_mod_cast hnb
  have hx1 : -(1 - 1 / 3600000000000) ≤
      -((a % 3600000000000 : ℤ) : ℚ) / 3600000000000 := by
    rw [le_div_iff₀ (by norm_num)]
    linarith
  have p6 : (2 : ℚ) ^ (6 : ℤ) = 64 := by norm_num
  have p48 : (2 : ℚ) ^ ((6 : ℤ) - 54) = 1 / 281474976710656 := by norm_num
  have p54 : (2 : ℚ) ^ (-54 : ℤ) = 1 / 18014398509481984 := by norm_num
  rw [p54] at hq1
  have habs : |(-((a / 3600000000000 : ℤ) : ℚ) +
      roundFloat64 (-((a % 3600000000000 : ℤ) : ℚ) / 3600000000000))| < 2 ^ (6 : ℤ) := by
    rw [p6, abs_lt]
    constructor <;> linarith
  have herr := roundFloat64_error _ 6 habs
  rw [abs_le, p48] at herr
  unfold hoursInt
  rw [hH]
  apply le_truncToInt
  · omega
  · push_cast
    linarith [herr.1]

theorem roundHalfEven_eq (y : ℚ) (n : ℤ) (h1 : y - n < 1 / 2) (h2 : (n : ℚ) - y < 1 / 2) :
    roundHalfEven y = n := by
  obtain ⟨e1, e2⟩ := roundHalfEven_error y
  have a1 : ((roundHalfEven y - n : ℤ) : ℚ) < 1 := by push_cast; linarith
  have a2 : ((n - roundHalfEven y : ℤ) : ℚ) < 1 := by push_cast; linarith
  have b1 : roundHalfEven y - n < 1 := by exact_mod_cast a1
  have b2 : n - roundHalfEven y < 1 := by exact_mod_cast a2
  omega

theorem roundFloat64_eq (x : ℚ) (e n : ℤ) (hx : x ≠ 0) (h1 : 2 ^ e ≤ |x|)
    (h2 : |x| < 2 ^ (e + 1)) (h3 : x * 2 ^ (52 - e) - n < 1 / 2)
    (h4 : (n : ℚ) - x * 2 ^ (52 - e) < 1 / 2) :
    roundFloat64 x = n / 2 ^ (52 - e) := by
  have hpos : (0 : ℚ) < |x| := abs_pos.mpr hx
  have hlog : Int.log 2 |x| = e := by
    have u := log_lt_of_abs_lt x hx (e + 1) h2
    have l := (Int.zpow_le_iff_le_log (R := ℚ) (b := 2) (by norm_num) (x := e) hpos).mp
      (by simpa using h1)
    omega
  unfold roundFloat64
  rw [if_neg hx, hlog, roundHalfEven_eq _ n h3 h4]

/-- The hour count of a leaf expired for 4103 h 59 min 59.999999999 s: the float64 sum
rounds to -4104, one hour beyond the exact truncated quotient -4103. -/
theorem hoursInt_rounds_to_next_hour :
    hoursInt (-14774399999999999) = -4104 ∧
    Int.tdiv (-14774399999999999) Hour = -4103 := by
  have hdiv : Int.tdiv (-14774399999999999) Hour = -4103 := by decide
  have hmod : Int.tmod (-14774399999999999) Hour = -3599999999999 := by decide
  refine ⟨?_, hdiv⟩
  have c1 : roundFloat64 ((-4103 : ℤ) : ℚ) = ((-4103 : ℤ) : ℚ) :=
    roundFloat64_int _ (by norm_num)
  have c2 : roundFloat64 ((-3599999999999 : ℤ) : ℚ) = ((-3599999999999 : ℤ) : ℚ) :=
    roundFloat64_int _ (by norm_num)
  have c3 : roundFloat64 (((-3599999999999 : ℤ) : ℚ) / 3600000000000) =
      ((-9007199254738490 : ℤ) : ℚ) / 2 ^ ((52 : ℤ) - (-1)) := by
    apply roundFloat64_eq
    · norm_num
    · rw [abs_of_neg (by norm_num)]; norm_num
    · rw [abs_of_neg (by norm_num)]; norm_num
    · norm_num
    · norm_num
  have c4 : roundFloat64 (((-4103 : ℤ) : ℚ) +
      ((-9007199254738490 : ℤ) : ℚ) / 2 ^ ((52 : ℤ) - (-1))) =
      ((-4512395720392704 : ℤ) : ℚ) / 2 ^ ((52 : ℤ) - 12) := by
    apply roundFloat64_eq
    · norm_num
    · rw [abs_of_neg (by norm_num)]; norm_num
    · rw [abs_of_neg (by norm_num)]; norm_num
    · norm_num
    · norm_num
  have c5 : ((-4512395720392704 : ℤ) : ℚ) / 2 ^ ((52 : ℤ) - 12) = ((-4104 : ℤ) : ℚ) := by
    norm_num
  unfold hoursInt Hours
  rw [hdiv, hmod, c1, c2, c3, c4, c5]
  unfold truncToInt
  rw [if_neg (by norm_num), Int.ceil_intCast]


/-- The day count `int(d.Hours()) / 24` of a duration `d` in the range of
`time.Duration`: never above 0 for an expired duration, below zero exactly from 24
hours in the past on, and -1 exactly between 24 hours (included) and 48 hours
(excluded) in the past. -/
theorem days_of_duration (d : Int) (hlo : -9223372036854775808 ≤ d) :
    (d < 0 → Int.tdiv (hoursInt d) 24 ≤ 0) ∧
    (Int.tdiv (hoursInt d) 24 < 0 ↔ d ≤ -(24 * 3600000000000)) ∧
    (Int.tdiv (hoursInt d) 24 = -1 ↔
      d ≤ -(24 * 3600000000000) ∧ -(48 * 3600000000000) < d) := by
  by_cases h : 0 ≤ d
  · have h2 : 0 ≤ hoursInt d := hoursInt_nonneg d h
    have h3 : 0 ≤ Int.tdiv (hoursInt d) 24 := Int.tdiv_nonneg h2 (by decide)
    refine ⟨fun hd => by omega, ?_, ?_⟩
    · constructor <;> intro <;> omega
    · constructor
      · intro; omega
      · rintro ⟨_, _⟩; omega
  · have hd : d < 0 := by omega
    have ha : 0 < -d := by omega
    have hle := hoursInt_neg_le (-d) ha (by omega)
    rw [Int.neg_neg] at hle
    have hneg : hoursInt d ≤ 0 := by
      have : 0 ≤ -d / 3600000000000 := Int.ediv_nonneg (by omega) (by decide)
      omega
    have ht : Int.tdiv (hoursInt d) 24 = -((-hoursInt d) / 24) := by
      have e : hoursInt d = -(-hoursInt d) := by omega
      conv_lhs => rw [e]
      rw [Int.neg_tdiv, Int.tdiv_eq_ediv (by omega) (by decide)]
    rw [ht]
    by_cases hsmall : -d < 48 * 3600000000000
    · have heq := hoursInt_neg_small (-d) ha hsmall
      rw [Int.neg_neg] at heq
      rw [heq]
      omega
    · omega


/-! ## The day count -/

theorem Sub_cases (t u : Int) :
    (t - u < -9223372036854775808 ∧ Sub t u = -9223372036854775808) ∨
    (9223372036854775807 < t - u ∧ Sub t u = 9223372036854775807) ∨
    (-9223372036854775808 ≤ t - u ∧ t - u ≤ 9223372036854775807 ∧ Sub t u = t - u) := by
  have hmin : minDuration = -9223372036854775808 := by decide
  have hmax : maxDuration = 9223372036854775807 := by decide
  unfold Sub
  rw [hmin, hmax]
  by_cases h1 : t - u < -9223372036854775808
  · left; rw [if_pos h1]; exact ⟨h1, rfl⟩
  · rw [if_neg h1]
    by_cases h2 : 9223372036854775807 < t - u
    · right; left; rw [if_pos h2]; exact ⟨h2, rfl⟩
    · right; right; rw [if_neg h2]; exact ⟨by omega, by omega, rfl⟩

theorem daysUntil_facts (notAfter now : Int) :
    (notAfter < now → daysUntil notAfter now ≤ 0) ∧
    (notAfter < now →
      (daysUntil notAfter now < 0 ↔ notAfter + 24 * Hour ≤ now)) ∧
    (daysUntil notAfter now = -1 ↔
      notAfter + 24 * Hour ≤ now ∧ now < notAfter + 48 * Hour) := by
  have hH : Hour = 3600000000000 := rfl
  have hlo : -9223372036854775808 ≤ Sub notAfter now := by
    rcases Sub_cases notAfter now with ⟨_, he⟩ | ⟨_, he⟩ | ⟨_, _, he⟩ <;> omega
  obtain ⟨f1, f2, f3⟩ := days_of_duration (Sub notAfter now) hlo
  unfold daysUntil
  rw [hH]
  rcases Sub_cases notAfter now with ⟨hc, he⟩ | ⟨hc, he⟩ | ⟨hc1, hc2, he⟩
  · rw [he] at f1 f2 f3 ⊢
    refine ⟨fun _ => f1 (by omega), fun _ => ?_, ?_⟩
    · rw [f2]; omega
    · rw [f3]; omega
  · rw [he] at f1 f2 f3 ⊢
    refine ⟨fun hlt => by omega, fun hlt => by omega, ?_⟩
    rw [f3]; omega
  · rw [he] at f1 f2 f3 ⊢
    refine ⟨fun hlt => f1 (by omega), fun _ => ?_, ?_⟩
    · rw [f2]; omega
    · rw [f3]; omega

/-! ## The claims -/

/-- C1 (code defect): the presented chain `[directLeaf, rootCert]` has length 2 and
`Verify` returns for the leaf the single path `[directLeaf]`, of length 1, so no
returned path has the length of the presented chain; the final `isChainInOrder` is
nevertheless 1, because line 170 sets the flag before the length test of line 171. -/
theorem isChainInOrder_one_without_matching_length :
    verifyAt (sampleCrypto true directLeaf (some [[directLeaf]]) 0)
        [directLeaf, rootCert] sampleHost 0 = some [[directLeaf]] ∧
    (∀ p, p ∈ [[directLeaf]] → p.length ≠ [directLeaf, rootCert].length) ∧
    (run (sampleCrypto true directLeaf (some [[directLeaf]]) 0)
        [directLeaf, rootCert] sampleHost).isChainInOrder = 1 := by
  decide

/-- C2 (counterexample): on the chain `[directLeaf, rootCert]` the verification of
the outermost certificate against the system trust store fails, the verification
of the leaf against the pool succeeds, and the final `isRootKnownCert` is 1. -/
theorem isRootKnownCert_one_with_unknown_root :
    2 ≤ [directLeaf, rootCert].length ∧
    anchorsAt (sampleCrypto false directLeaf (some [[directLeaf, rootCert]]) 0)
        [directLeaf, rootCert] sampleHost 1 = none ∧
    verifyAt (sampleCrypto false directLeaf (some [[directLeaf, rootCert]]) 0)
        [directLeaf, rootCert] sampleHost 1 = none ∧
    (run (sampleCrypto false directLeaf (some [[directLeaf, rootCert]]) 0)
        [directLeaf, rootCert] sampleHost).isRootKnownCert = 1 := by
  decide

/-- C2 (amended): for every presented chain of length at least 2, the final
`isRootKnownCert` is 0 when the verification of some certificate other than the
outermost one fails, and 1 when the verifications of all of them succeed, whatever
the outcome of the outermost certificate's verification against the system trust
store and of the signature checks. -/
theorem isRootKnownCert_of_inner_verifications (K : Crypto) (peer : List Certificate)
    (host : String) (h : 2 ≤ peer.length) :
    ((∃ j, j + 1 < peer.length ∧ (verifyAt K peer host j).isSome = false) →
      (run K peer host).isRootKnownCert = 0) ∧
    ((∀ j, j + 1 < peer.length → (verifyAt K peer host j).isSome = true) →
      (run K peer host).isRootKnownCert = 1) := by
  obtain ⟨h0, h1⟩ := (stateAfter_isRootKnownCert K peer host 0 (Nat.zero_le _)).2
    (by omega)
  rw [run_eq_stateAfter]
  constructor
  · rintro ⟨j, hj, hv⟩
    exact h0 ⟨j, Nat.zero_le j, hj, hv⟩
  · intro hall
    apply h1
    rintro ⟨j, _, hj, hv⟩
    rw [hall j hj] at hv
    exact absurd hv (by decide)

/-- C2 (witness): on `[directLeaf, rootCert]` with a root the system store trusts and
a leaf whose verification against the pool fails, `isRootKnownCert` is 0; with a
root the system store does not trust and a leaf that verifies, it is 1. -/
theorem isRootKnownCert_of_inner_verifications_witness :
    2 ≤ [directLeaf, rootCert].length ∧
    (run (sampleCrypto true directLeaf none 0)
        [directLeaf, rootCert] sampleHost).isRootKnownCert = 0 ∧
    (run (sampleCrypto false directLeaf (some [[directLeaf, rootCert]]) 0)
        [directLeaf, rootCert] sampleHost).isRootKnownCert = 1 :=
  ⟨by decide,
   (isRootKnownCert_of_inner_verifications (sampleCrypto true directLeaf none 0)
      [directLeaf, rootCert] sampleHost (by decide)).1 ⟨0, by decide, by decide⟩,
   (isRootKnownCert_of_inner_verifications
      (sampleCrypto false directLeaf (some [[directLeaf, rootCert]]) 0)
      [directLeaf, rootCert] sampleHost (by decide)).2
      (fun j hj => by
        have h0 : j = 0 := by change j + 1 < 2 at hj; omega
        subst h0; decide)⟩

/-- C3 (code defect): for every certificate other than the outermost one, the anchor
set handed to `Verify` is the pool holding the certificates of the indices
`n-1, ..., i`, the certificate under verification included: line 107 adds it to the
pool before the call of line 145. -/
theorem anchors_include_verified_certificate (K : Crypto) (peer : List Certificate)
    (host : String) (i : Nat) (h : i + 1 < peer.length) :
    anchorsAt K peer host i = some ((peer.drop i).reverse.foldl AddCert []) ∧
    ∃ c, c ∈ (peer.drop i).reverse.foldl AddCert [] ∧
      c.Equal (certAt peer i) = true := by
  have hi : i < peer.length := by omega
  have hne : i ≠ peer.length - 1 := by omega
  have hp := poolAt_eq K peer host i hi
  constructor
  · unfold anchorsAt vrfyOpts
    rw [hp]
    simp [hne]
  · rw [← hp]
    exact AddCert_has _ _

/-- C3 (witness): on `[directLeaf, rootCert]` the anchors of the leaf's verification
are `[rootCert, directLeaf]`: the leaf is one of its own anchors. -/
theorem anchors_include_verified_certificate_witness :
    0 + 1 < [directLeaf, rootCert].length ∧
    anchorsAt (sampleCrypto true directLeaf (some [[directLeaf]]) 0)
        [directLeaf, rootCert] sampleHost 0 = some [rootCert, directLeaf] ∧
    directLeaf ∈ [rootCert, directLeaf] :=
  ⟨by decide,
   (anchors_include_verified_certificate
      (sampleCrypto true directLeaf (some [[directLeaf]]) 0)
      [directLeaf, rootCert] sampleHost 0 (by decide)).1.trans (by decide),
   by decide⟩

/-- C4: for every non-empty presented chain, the final `isChainValidated` is 1
exactly when every certificate's verification succeeded, every parent-signature
check passed and the final `isChainInOrder` is 1; otherwise it is 0.  A single
failed verification or parent-signature check forces 0. -/
theorem isChainValidated_iff_all_checks (K : Crypto) (peer : List Certificate)
    (host : String) (h : peer ≠ []) :
    ((run K peer host).isChainValidated = 1 ↔
      (∀ j, j < peer.length → (verifyAt K peer host j).isSome = true) ∧
      (∀ j, j + 1 < peer.length → signedByParent K peer j = true) ∧
      (run K peer host).isChainInOrder = 1) ∧
    (¬ ((∀ j, j < peer.length → (verifyAt K peer host j).isSome = true) ∧
        (∀ j, j + 1 < peer.length → signedByParent K peer j = true) ∧
        (run K peer host).isChainInOrder = 1) →
      (run K peer host).isChainValidated = 0) ∧
    (∀ j, j < peer.length → (verifyAt K peer host j).isSome = false →
      (run K peer host).isChainValidated = 0) ∧
    (∀ j, j + 1 < peer.length → signedByParent K peer j = false →
      (run K peer host).isChainValidated = 0) := by
  obtain ⟨h1, h0⟩ := run_isChainValidated K peer host h
  have hw : walkOK K peer host 0 ↔
      (∀ j, j < peer.length → (verifyAt K peer host j).isSome = true) ∧
      (∀ j, j + 1 < peer.length → signedByParent K peer j = true) := by
    unfold walkOK
    constructor
    · rintro ⟨a, b⟩
      exact ⟨fun j hj => a j (Nat.zero_le j) hj, fun j hj => b j (Nat.zero_le j) hj⟩
    · rintro ⟨a, b⟩
      exact ⟨fun j _ hj => a j hj, fun j _ hj => b j hj⟩
  have hnot : ¬ ((∀ j, j < peer.length → (verifyAt K peer host j).isSome = true) ∧
        (∀ j, j + 1 < peer.length → signedByParent K peer j = true) ∧
        (run K peer host).isChainInOrder = 1) →
      (run K peer host).isChainValidated = 0 := by
    intro hn
    apply h0
    rintro ⟨a, b⟩
    exact hn ⟨(hw.mp a).1, (hw.mp a).2, b⟩
  refine ⟨⟨fun hone => ?_, fun ⟨a, b, c⟩ => h1 ⟨hw.mpr ⟨a, b⟩, c⟩⟩, hnot, ?_, ?_⟩
  · by_contra hn
    rw [hnot hn] at hone
    exact absurd hone (by decide)
  · intro j hj hv
    apply hnot
    rintro ⟨a, _, _⟩
    rw [a j hj] at hv
    exact absurd hv (by decide)
  · intro j hj hs
    apply hnot
    rintro ⟨_, b, _⟩
    rw [b j hj] at hs
    exact absurd hs (by decide)

/-- C4 (witness): on the chain `[leafCert, interCert, rootCert]` with all checks
passing and the presented chain returned as the only path, `isChainValidated` is
1. -/
theorem isChainValidated_iff_all_checks_witness :
    [leafCert, interCert, rootCert] ≠ [] ∧
    (run (sampleCrypto true leafCert (some [[leafCert, interCert, rootCert]]) 0)
        [leafCert, interCert, rootCert] sampleHost).isChainValidated = 1 :=
  ⟨by decide,
   (isChainValidated_iff_all_checks
      (sampleCrypto true leafCert (some [[leafCert, interCert, rootCert]]) 0)
      [leafCert, interCert, rootCert] sampleHost (by decide)).1.mpr
      ⟨fun j hj => by
        change j < 3 at hj
        interval_cases j <;> decide,
       fun j hj => by
        have hj2 : j < 2 := by change j + 1 < 3 at hj; omega
        interval_cases j <;> decide,
       by decide⟩⟩

/-- C5 (counterexample): on the chain `[leafCert, interCert, rootCert]` the leaf's
notAfter lies one hour before `now`, so the leaf is already expired, and the
reported `notAfterInDays` is 0, not a negative number. -/
theorem expired_leaf_with_zero_days :
    [leafCert, interCert, rootCert] ≠ [] ∧
    (certAt [leafCert, interCert, rootCert] 0).NotAfter < (x509Crypto [rootCert] Hour).now ∧
    (run (x509Crypto [rootCert] Hour)
        [leafCert, interCert, rootCert] sampleHost).notAfterInDays = 0 := by
  refine ⟨by decide, by decide, ?_⟩
  rw [run_notAfterInDays _ _ _ (by decide)]
  obtain ⟨f1, f2, _⟩ := daysUntil_facts
    (certAt [leafCert, interCert, rootCert] 0).NotAfter (x509Crypto [rootCert] Hour).now
  have h1 := f1 (by decide)
  have h2 : ¬ daysUntil (certAt [leafCert, interCert, rootCert] 0).NotAfter
      (x509Crypto [rootCert] Hour).now < 0 := by
    rw [f2 (by decide)]
    decide
  omega

/-- C5 (amended): for every non-empty presented chain whose leaf's notAfter lies
before `now`, the reported `notAfterInDays` (line 182: the float64 hour count from
`now` to notAfter, truncated toward zero, divided by 24 with truncation toward zero)
is at most 0, and it is strictly negative exactly when notAfter lies at least 24
hours before `now`. -/
theorem notAfterInDays_of_expired_leaf (K : Crypto) (peer : List Certificate)
    (host : String) (h : peer ≠ []) (hexp : (certAt peer 0).NotAfter < K.now) :
    (run K peer host).notAfterInDays ≤ 0 ∧
    ((run K peer host).notAfterInDays < 0 ↔ (certAt peer 0).NotAfter + 24 * Hour ≤ K.now) := by
  obtain ⟨f1, f2, _⟩ := daysUntil_facts (certAt peer 0).NotAfter K.now
  rw [run_notAfterInDays K peer host h]
  exact ⟨f1 hexp, f2 hexp⟩

/-- C5 (witness): on `[leafCert, interCert, rootCert]` a leaf expired for 24 hours is
reported with a negative number of days. -/
theorem notAfterInDays_of_expired_leaf_witness :
    [leafCert, interCert, rootCert] ≠ [] ∧
    (certAt [leafCert, interCert, rootCert] 0).NotAfter <
      (x509Crypto [rootCert] (24 * Hour)).now ∧
    (run (x509Crypto [rootCert] (24 * Hour))
        [leafCert, interCert, rootCert] sampleHost).notAfterInDays < 0 :=
  ⟨by decide, by decide,
   (notAfterInDays_of_expired_leaf (x509Crypto [rootCert] (24 * Hour))
      [leafCert, interCert, rootCert] sampleHost (by decide) (by decide)).2.mpr
      (by decide)⟩

/-- C6: for every run that reports verdicts, over any certificate message the server
presents (an empty one makes the handshake fail and no verdict is reported), the
reported `isValidated` is the integer product of the reported `isRootKnownCert` and
`isChainValidated`; in particular, with both of them at -1 the reported
`isValidated` is 1. -/
theorem isValidated_is_product (K : Crypto) (presented : List Certificate)
    (host : String) (st : State) (h : main K presented host = some st) :
    st.isValidated = st.isRootKnownCert * st.isChainValidated ∧
    (st.isRootKnownCert = -1 ∧ st.isChainValidated = -1 → st.isValidated = 1) := by
  have hprod : st.isValidated = st.isRootKnownCert * st.isChainValidated := by
    unfold main DialWithDialer at h
    by_cases he : presented = []
    · rw [if_pos he] at h
      exact absurd h (by simp)
    · rw [if_neg he] at h
      have hst : run K presented host = st := by simpa using h
      rw [← hst, run_eq_iter_leaf K presented host he]
      exact iter_isValidated K presented host 0 _
  refine ⟨hprod, ?_⟩
  rintro ⟨h1, h2⟩
  rw [hprod, h1, h2]
  rfl

/-- C6 (witness): the run over `[leafCert, interCert, rootCert]` reports verdicts, and
its `isValidated` is the product of the two verdicts. -/
theorem isValidated_is_product_witness :
    main (x509Crypto [rootCert] 0) [leafCert, interCert, rootCert] sampleHost =
      some (run (x509Crypto [rootCert] 0) [leafCert, interCert, rootCert] sampleHost) ∧
    (run (x509Crypto [rootCert] 0)
        [leafCert, interCert, rootCert] sampleHost).isValidated =
      (run (x509Crypto [rootCert] 0)
        [leafCert, interCert, rootCert] sampleHost).isRootKnownCert *
      (run (x509Crypto [rootCert] 0)
        [leafCert, interCert, rootCert] sampleHost).isChainValidated :=
  ⟨rfl,
   (isValidated_is_product (x509Crypto [rootCert] 0) [leafCert, interCert, rootCert]
      sampleHost _ rfl).1⟩

/-- C7: for every presented chain of three certificates (leaf, intermediate, root) in
which both adjacent-pair signature checks pass, neither the leaf nor the
intermediate verifies against itself and all three verifications succeed, the final
verdicts are `isRootKnownCert = 1`, `isChainValidated = 1`, `isChainInOrder = 1`,
`isValidated = 1` and `isSelfsigned = 0`.  The leaf is among its own roots (line
107), so `Verify` of crypto/x509 returns the one path `[leaf]` (`rootIsOwnPath`); its
length is not 3, and line 170 leaves `isChainInOrder` at 1.  No hypothesis on the
returned paths is needed. -/
theorem canonical_three_chain_verdicts (K : Crypto) (leaf inter root : Certificate)
    (host : String) (hlib : rootIsOwnPath K)
    (hp0 : signedByParent K [leaf, inter, root] 0 = true)
    (hp1 : signedByParent K [leaf, inter, root] 1 = true)
    (hs0 : K.CheckSignatureFrom leaf leaf = false)
    (hs1 : K.CheckSignatureFrom inter inter = false)
    (hv : ∀ j, j < 3 → (verifyAt K [leaf, inter, root] host j).isSome = true) :
    verifyAt K [leaf, inter, root] host 0 = some [[leaf]] ∧
    (run K [leaf, inter, root] host).isRootKnownCert = 1 ∧
    (run K [leaf, inter, root] host).isChainValidated = 1 ∧
    (run K [leaf, inter, root] host).isChainInOrder = 1 ∧
    (run K [leaf, inter, root] host).isValidated = 1 ∧
    (run K [leaf, inter, root] host).isSelfsigned = 0 := by
  have hne : [leaf, inter, root] ≠ [] := by simp
  -- the paths returned for the leaf
  have hpaths : verifyAt K [leaf, inter, root] host 0 = some [[leaf]] := by
    have hsome := hv 0 (by decide)
    obtain ⟨chains, hc⟩ := Option.isSome_iff_exists.mp hsome
    have hcall : K.Verify leaf
        { Roots := some (poolAt K [leaf, inter, root] host 0), DNSName := host } =
        some chains := hc
    have hin : (poolAt K [leaf, inter, root] host 0).any (fun c => c.Equal leaf) = true := by
      obtain ⟨c, hmem, heq⟩ := AddCert_has
        (stateBefore K [leaf, inter, root] host 0).certPool (certAt [leaf, inter, root] 0)
      exact List.any_eq_true.mpr ⟨c, hmem, heq⟩
    rw [hc, hlib leaf _ host chains hcall hin]
  have hico : (run K [leaf, inter, root] host).isChainInOrder = 1 := by
    rw [run_isChainInOrder K _ host hne, hpaths]
    rfl
  have hrk : (run K [leaf, inter, root] host).isRootKnownCert = 1 := by
    rw [run_eq_stateAfter]
    apply ((stateAfter_isRootKnownCert K [leaf, inter, root] host 0 (Nat.zero_le _)).2
      (by simp)).2
    rintro ⟨j, _, hj, hf⟩
    have hj3 : j < 3 := by change j + 1 < 3 at hj; omega
    rw [hv j hj3] at hf
    exact absurd hf (by decide)
  have hcv : (run K [leaf, inter, root] host).isChainValidated = 1 := by
    apply (run_isChainValidated K [leaf, inter, root] host hne).1
    refine ⟨⟨fun j _ hj => hv j hj, fun j _ hj => ?_⟩, hico⟩
    have hj2 : j < 2 := by change j + 1 < 3 at hj; omega
    interval_cases j
    · exact hp0
    · exact hp1
  have hval : (run K [leaf, inter, root] host).isValidated = 1 := by
    have := iter_isValidated K [leaf, inter, root] host 0
      (stateAfter K [leaf, inter, root] host 1)
    rw [← run_eq_iter_leaf K [leaf, inter, root] host hne, hrk, hcv] at this
    exact this
  have hss : (run K [leaf, inter, root] host).isSelfsigned = 0 := by
    have h3 : stateAfter K [leaf, inter, root] host (2 + 1) = init :=
      stateAfter_length K [leaf, inter, root] host
    rw [run_eq_stateAfter, stateAfter_step K _ host 0 (by simp),
      stateAfter_step K _ host 1 (by simp), stateAfter_step K _ host 2 (by simp),
      h3, iter_isSelfsigned, iter_isSelfsigned, iter_isSelfsigned]
    have c0 : certAt [leaf, inter, root] 0 = leaf := rfl
    have c1 : certAt [leaf, inter, root] 1 = inter := rfl
    rw [c0, c1, hs0, hs1]
    simp [init]
  exact ⟨hpaths, hrk, hcv, hico, hval, hss⟩

/-- The sample library has the property `rootIsOwnPath`. -/
theorem x509Crypto_rootIsOwnPath (systemRoots : List Certificate) (now : Int) :
    rootIsOwnPath (x509Crypto systemRoots now) := by
  intro cert pool dns certChains h hin
  have h2 : x509Verify pool cert = some certChains := h
  unfold x509Verify at h2
  rw [if_pos hin] at h2
  exact (Option.some.inj h2).symm

/-- C7 (witness): on the chain `[leafCert, interCert, rootCert]`, with `rootCert` in
the system trust store, all hypotheses hold and the verdicts are 1, 1, 1, 1 and 0. -/
theorem canonical_three_chain_verdicts_witness :
    signedByParent (x509Crypto [rootCert] 0) [leafCert, interCert, rootCert] 0 = true ∧
    signedByParent (x509Crypto [rootCert] 0) [leafCert, interCert, rootCert] 1 = true ∧
    (x509Crypto [rootCert] 0).CheckSignatureFrom leafCert leafCert = false ∧
    (x509Crypto [rootCert] 0).CheckSignatureFrom interCert interCert = false ∧
    (verifyAt (x509Crypto [rootCert] 0)
      [leafCert, interCert, rootCert] sampleHost 2).isSome = true ∧
    (verifyAt (x509Crypto [rootCert] 0)
      [leafCert, interCert, rootCert] sampleHost 1).isSome = true ∧
    verifyAt (x509Crypto [rootCert] 0)
      [leafCert, interCert, rootCert] sampleHost 0 = some [[leafCert]] ∧
    (run (x509Crypto [rootCert] 0)
      [leafCert, interCert, rootCert] sampleHost).isRootKnownCert = 1 ∧
    (run (x509Crypto [rootCert] 0)
      [leafCert, interCert, rootCert] sampleHost).isChainValidated = 1 ∧
    (run (x509Crypto [rootCert] 0)
      [leafCert, interCert, rootCert] sampleHost).isChainInOrder = 1 ∧
    (run (x509Crypto [rootCert] 0)
      [leafCert, interCert, rootCert] sampleHost).isValidated = 1 ∧
    (run (x509Crypto [rootCert] 0)
      [leafCert, interCert, rootCert] sampleHost).isSelfsigned = 0 :=
  ⟨by decide, by decide, by decide, by decide, by decide, by decide,
   canonical_three_chain_verdicts (x509Crypto [rootCert] 0) leafCert interCert rootCert
      sampleHost (x509Crypto_rootIsOwnPath [rootCert] 0) (by decide) (by decide)
      (by decide) (by decide)
      (fun j hj => by interval_cases j <;> decide)⟩

/-- C8 (counterexample): over the non-empty chain `[leafCert, interCert, rootCert]`,
with a leaf expired for exactly 24 hours, the reported `notAfterInDays` is -1. -/
theorem notAfterInDays_minus_one_of_nonempty :
    [leafCert, interCert, rootCert] ≠ [] ∧
    (run (x509Crypto [rootCert] (24 * Hour))
        [leafCert, interCert, rootCert] sampleHost).notAfterInDays = -1 := by
  refine ⟨by decide, ?_⟩
  rw [run_notAfterInDays _ _ _ (by decide)]
  exact (daysUntil_facts _ _).2.2.mpr ⟨by decide, by decide⟩

/-- C8 (amended): over a non-empty presented chain the reported `notAfterInDays` is
-1 exactly when the leaf's notAfter lies at least 24 hours and less than 48 hours
before `now`; in every other case it is different from -1. -/
theorem notAfterInDays_eq_minus_one_iff (K : Crypto) (peer : List Certificate)
    (host : String) (h : peer ≠ []) :
    ((run K peer host).notAfterInDays = -1 ↔
      (certAt peer 0).NotAfter + 24 * Hour ≤ K.now ∧
      K.now < (certAt peer 0).NotAfter + 48 * Hour) := by
  rw [run_notAfterInDays K peer host h]
  exact (daysUntil_facts (certAt peer 0).NotAfter K.now).2.2

/-- C8 (witness): on `[leafCert, interCert, rootCert]` a leaf that expires one hour
after `now` is not reported with -1 days. -/
theorem notAfterInDays_eq_minus_one_iff_witness :
    [leafCert, interCert, rootCert] ≠ [] ∧
    (run (x509Crypto [rootCert] (-Hour))
        [leafCert, interCert, rootCert] sampleHost).notAfterInDays ≠ -1 :=
  ⟨by decide,
   fun e =>
    absurd
      ((notAfterInDays_eq_minus_one_iff (x509Crypto [rootCert] (-Hour))
        [leafCert, interCert, rootCert] sampleHost (by decide)).mp e).1
      (by decide)⟩

/-- C9: for every presented chain of length 1, the sole certificate is verified
against the system trust store, no signature check is made, the final
`isRootKnownCert` is -1, the final `isSelfsigned` is 0, and the final
`isChainValidated` is 0 or 1, being 0 whenever the verification fails. -/
theorem single_certificate_chain (K : Crypto) (c : Certificate) (host : String) :
    anchorsAt K [c] host 0 = none ∧
    verifyAt K [c] host 0 = K.Verify c { Roots := none, DNSName := host } ∧
    (run K [c] host).isRootKnownCert = -1 ∧
    (run K [c] host).isSelfsigned = 0 ∧
    ((run K [c] host).isChainValidated = 0 ∨ (run K [c] host).isChainValidated = 1) ∧
    ((verifyAt K [c] host 0).isSome = false → (run K [c] host).isChainValidated = 0) := by
  have hr : run K [c] host = iter K [c] host 0 init := rfl
  have hne : [c] ≠ [] := by simp
  obtain ⟨h1, h0⟩ := run_isChainValidated K [c] host hne
  refine ⟨rfl, rfl, ?_, ?_, ?_, ?_⟩
  · rw [hr, iter_isRootKnownCert]
    simp [init]
  · rw [hr, iter_isSelfsigned]
    simp [init]
  · by_cases hc : walkOK K [c] host 0 ∧ (run K [c] host).isChainInOrder = 1
    · right; exact h1 hc
    · left; exact h0 hc
  · intro hv
    apply h0
    rintro ⟨⟨a, _⟩, _⟩
    have := a 0 (Nat.le_refl 0) (by simp)
    rw [hv] at this
    exact absurd this (by decide)

/-- C10: for every non-empty presented chain, the final `isChainInOrder` is the
verdict of the last path returned for the leaf alone: it is 0 when no path is
returned, or when the last path has the presented chain's length and differs from
it at some position; it is 1 in every other case, a last path of another length
included.  The paths before the last one do not enter the result. -/
theorem isChainInOrder_of_last_path (K : Crypto) (peer : List Certificate)
    (host : String) (h : peer ≠ []) :
    ((verifyAt K peer host 0).getD [] = [] → (run K peer host).isChainInOrder = 0) ∧
    (∀ earlier last, (verifyAt K peer host 0).getD [] = earlier ++ [last] →
      (run K peer host).isChainInOrder = chainInOrder peer [last] ∧
      ((last.length = peer.length ∧
          ∃ j, j < peer.length ∧ (certAt peer j).Equal (certAt last j) = false) →
        (run K peer host).isChainInOrder = 0) ∧
      (¬ (last.length = peer.length ∧
          ∃ j, j < peer.length ∧ (certAt peer j).Equal (certAt last j) = false) →
        (run K peer host).isChainInOrder = 1)) := by
  rw [run_isChainInOrder K peer host h]
  constructor
  · intro he
    rw [he]; rfl
  · intro earlier last he
    rw [he, chainInOrder_append_last]
    have hsingle : chainInOrder peer [last] =
        if last.length = peer.length then orderInner peer last 1 else 1 :=
      chainInOrder_append_last peer [] last
    rw [hsingle]
    refine ⟨rfl, ?_, ?_⟩
    · rintro ⟨hl, j, hj, hne⟩
      rw [if_pos hl]
      rcases orderInner_one peer last with z | o
      · exact z
      · have := (orderInner_eq_one_iff peer last hl).mp o j hj
        rw [hne] at this
        exact absurd this (by decide)
    · intro hn
      by_cases hl : last.length = peer.length
      · rw [if_pos hl, orderInner_eq_one_iff peer last hl]
        intro j hj
        by_contra hf
        exact hn ⟨hl, j, hj, by simpa using hf⟩
      · rw [if_neg hl]

/-- C10 (witness): on `[leafCert, interCert, rootCert]`, a first path that differs
from the presented chain at position 1 followed by a last path equal to it gives
`isChainInOrder = 1`. -/
theorem isChainInOrder_of_last_path_witness :
    [leafCert, interCert, rootCert] ≠ [] ∧
    (run
      (sampleCrypto true leafCert
        (some [[leafCert, interAlt, rootCert], [leafCert, interCert, rootCert]]) 0)
      [leafCert, interCert, rootCert] sampleHost).isChainInOrder = 1 :=
  ⟨by decide,
   ((isChainInOrder_of_last_path
      (sampleCrypto true leafCert
        (some [[leafCert, interAlt, rootCert], [leafCert, interCert, rootCert]]) 0)
      [leafCert, interCert, rootCert] sampleHost (by decide)).2
      [[leafCert, interAlt, rootCert]] [leafCert, interCert, rootCert]
      (by decide)).1.trans (by decide)⟩

end Sslvrfy
